import Mathlib

/-!
# git-identitree: directory-mapping subsystem, shallow embedding

This file embeds the directory-mapping core of the repository
(`internal/mapping/gitconfig.go`, `internal/mapping/parser.go`,
`internal/profile/profile.go`, `internal/utils/path.go`) and proves the
frozen claims about it.

Modelling conventions:

* The shared git config file is an `Option String` (`none` = the file does
  not exist); fragment files are an association list from path to content.
* `bufio.Scanner` with `ScanLines` is modelled by `scanLines`: split on
  `'\n'`, drop a final empty token, and strip one trailing `'\r'` from each
  token.  `strings.Join(lines, "\n")` is `joinNl`.
* The two regular expressions
  `^\s*\[includeIf\s+"gitdir/i:(.+)"\]\s*$` and `^\s*path\s*=\s*(.+)\s*$`
  are modelled by `matchIncludeIf` and `matchPathLine`, including the
  greedy-capture behaviour (the first takes the material before the last
  `"]` that is followed only by whitespace; the second's capture keeps
  trailing whitespace).  Lines produced by the scanner never contain
  `'\n'`, which is the domain on which the model is stated.
* One whitespace predicate `isWS` serves both RE2's `\s` (`[\t\n\f\r ]`)
  and Go's `strings.TrimSpace`; the two real character classes differ only
  on `'\x0b'` and exotic Unicode spaces, which are outside the modelled
  character set.
* `utils.NormalizePath` performs tilde expansion, `filepath.Abs` and
  `filepath.EvalSymlinks`, all of which depend on the process environment.
  It is modelled on its environment-free fragment: for absolute, already
  clean, symlink-free paths it reduces to `filepath.Clean`, which on such
  paths only strips trailing separators (`normalizePath`).  Theorems about
  a directory quantify over this fragment via the fixed-point hypothesis
  `normTS d = d`.
-/

/-- Whitespace class shared by the RE2 `\s` model and the `TrimSpace`
model (space, tab, newline, form feed, carriage return). -/
def isWS (c : Char) : Bool :=
  c == ' ' || c == '\t' || c == '\n' || c == '\x0c' || c == '\r'

/-- Drop leading whitespace characters of a string. -/
def dropWS (s : String) : String := String.mk (s.data.dropWhile isWS)

/-- Drop trailing whitespace characters of a string. -/
def trimRightWS (s : String) : String :=
  String.mk ((s.data.reverse.dropWhile isWS).reverse)

/-- Models Go `strings.TrimSpace` (restricted to the modelled whitespace
set, see the header comment). -/
def trimSpace (s : String) : String := trimRightWS (dropWS s)

/-- Boolean string-prefix test, `strings.HasPrefix`. -/
def sStartsWith (s pre : String) : Bool := pre.data.isPrefixOf s.data

/-- Boolean string-suffix test, `strings.HasSuffix`. -/
def sEndsWith (s suf : String) : Bool := suf.data.isSuffixOf s.data

/-- Drop the first `n` characters of a string. -/
def sDrop (s : String) (n : Nat) : String := String.mk (s.data.drop n)

/-- Drop the last `n` characters of a string. -/
def sDropRight (s : String) (n : Nat) : String :=
  String.mk (s.data.take (s.data.length - n))

/-- The last character of a string as a one-character string (used by the
greedy-capture model of the path regex; `""` for the empty string). -/
def sTakeRight1 (s : String) : String :=
  String.mk (match s.data.getLast? with
             | some c => [c]
             | none => [])

/-- Strip one trailing carriage return, as `bufio.ScanLines` does to each
token (`dropCR` in Go's bufio source). -/
def dropCR (s : String) : String :=
  if sEndsWith s "\r" then sDropRight s 1 else s

/-- Split a character list at `'\n'`; `cur` holds the (reversed) current
token.  Mirrors how `bufio.Scanner`/`strings.Split` tokenise. -/
def splitNlAux : List Char → List Char → List String
  | [], cur => [String.mk cur.reverse]
  | c :: cs, cur =>
    if c = '\n' then String.mk cur.reverse :: splitNlAux cs []
    else splitNlAux cs (c :: cur)

/-- All `'\n'`-separated tokens of a string (always non-empty). -/
def splitNl (s : String) : List String := splitNlAux s.data []

/-- Drop a final empty token: `bufio.Scanner` emits no token for the empty
tail after a final newline. -/
def dropLastEmpty (ts : List String) : List String :=
  if ts.getLast? = some "" then ts.dropLast else ts

/-- Models reading a file's content line by line with
`bufio.NewScanner(file)` and `scanner.Scan()/scanner.Text()`. -/
def scanLines (c : String) : List String :=
  if c = "" then [] else (dropLastEmpty (splitNl c)).map dropCR

/-- Models `strings.Join(lines, "\n")`, the serialisation used by
`writeGitConfig`. -/
def joinNl : List String → String
  | [] => ""
  | [l] => l
  | l :: ls => l ++ "\n" ++ joinNl ls

/-- Models `utils.EnsureTrailingSlash` (`internal/utils/path.go`): append a
separator unless the path is empty or already ends in `/` or `\`. -/
def ensureTrailingSlash (p : String) : String :=
  if p = "" then p
  else if sEndsWith p "/" || sEndsWith p "\\" then p
  else p ++ "/"

/-- Modelled restriction of `utils.NormalizePath` (see header comment):
on absolute, clean, symlink-free paths `Abs`+`Clean` only strips trailing
separators, keeping a lone root `/`. -/
def normalizePath (p : String) : String :=
  let cs := p.data.reverse.dropWhile (fun c => c == '/')
  if cs.isEmpty then (if p.data.isEmpty then "" else "/")
  else String.mk cs.reverse

/-- Normalise then add the trailing slash — the composition applied to every
directory at each call site of the Go code. -/
def normTS (p : String) : String := ensureTrailingSlash (normalizePath p)

/-- Models the match-and-capture of
`^\s*\[includeIf\s+"gitdir/i:(.+)"\]\s*$` on a single (newline-free) line:
the greedy `(.+)` captures up to the last `"]` that is followed only by
whitespace, and must be non-empty. -/
def matchIncludeIf (line : String) : Option String :=
  let s := dropWS line
  if sStartsWith s "[includeIf" then
    let r := sDrop s 10
    match r.data with
    | [] => none
    | c :: _ =>
      if isWS c then
        let r2 := dropWS r
        if sStartsWith r2 "\"gitdir/i:" then
          let body := trimRightWS (sDrop r2 10)
          if sEndsWith body "\"]" && decide (2 < body.data.length) then
            some (sDropRight body 2)
          else none
        else none
      else none
  else none

/-- Models the match-and-capture of `^\s*path\s*=\s*(.+)\s*$` on a single
line.  The greedy `\s*` after `=` takes the whitespace run, so the capture
keeps trailing whitespace; when everything after `=` is whitespace the
backtracked capture is the final whitespace character. -/
def matchPathLine (line : String) : Option String :=
  let s := dropWS line
  if sStartsWith s "path" then
    let r := dropWS (sDrop s 4)
    if sStartsWith r "=" then
      let rest := sDrop r 1
      if rest = "" then none
      else
        let t := dropWS rest
        some (if t = "" then sTakeRight1 rest else t)
    else none
  else none

/-- `internal/profile/profile.go`: a Git identity profile.  Absent optional
fields are the empty string, as for Go's zero values. -/
structure Profile where
  name : String
  email : String
  authorName : String
  sshKeyPath : String
  gpgKeyID : String
deriving DecidableEq, Repr

/-- `Profile.GetAuthorName`: the author name, falling back to the profile
name when not set. -/
def Profile.getAuthorName (p : Profile) : String :=
  if p.authorName ≠ "" then p.authorName else p.name

/-- The fragment path `filepath.Join(home, ".gitconfig-" + name)` for a
clean home directory without trailing separator. -/
def fragmentPathFor (home name : String) : String :=
  home ++ "/.gitconfig-" ++ name

/-- The content written by `generateProfileConfig`
(`internal/mapping/gitconfig.go`): a `[user]` section with `name` (the
profile name — NOT `GetAuthorName`), `email`, an optional `signingkey`
line, and an optional `[core]` section with `sshCommand`. -/
def generateProfileConfigContent (p : Profile) : String :=
  "[user]\n" ++
  "    name = " ++ p.name ++ "\n" ++
  "    email = " ++ p.email ++ "\n" ++
  (if p.gpgKeyID ≠ "" then "    signingkey = " ++ p.gpgKeyID ++ "\n" else "") ++
  (if p.sshKeyPath ≠ "" then
    "\n[core]\n" ++ "    sshCommand = ssh -i " ++ p.sshKeyPath ++ " -F /dev/null\n"
   else "")

/-- `internal/mapping/parser.go`: one parsed directory-to-profile mapping. -/
structure Mapping where
  directory : String
  profile : String
  configPath : String
deriving DecidableEq, Repr

/-- Go `path/filepath.Base` on Unix: strip trailing separators, then take
the part after the last separator (`"."` for the empty path, `"/"` for a
path of separators only). -/
def filepathBase (p : String) : String :=
  if p = "" then "."
  else
    let cs := p.data.reverse.dropWhile (fun c => c == '/')
    if cs.isEmpty then "/"
    else String.mk ((cs.takeWhile (fun c => !(c == '/'))).reverse)

/-- `extractProfileName`: strip the fixed `.gitconfig-` prefix from the base
name of a fragment path, or yield `""`. -/
def extractProfileName (configPath : String) : String :=
  let base := filepathBase configPath
  if sStartsWith base ".gitconfig-" then sDrop base 11 else ""

/-- One step of the `ParseMappings` scan loop.  The loop state pairs the
mappings accumulated so far with `some currentDir` when awaiting a `path`
line (`inIncludeIfBlock` in Go), else `none`.  The raw line is trimmed
first, exactly as in the source; a header line always (re)sets the pending
directory; while awaiting, a path line emits a mapping and any other line
starting with `[` silently discards the pending directory. -/
def parseLine (home : String) (acc : List Mapping × Option String)
    (rawLine : String) : List Mapping × Option String :=
  let line := trimSpace rawLine
  match matchIncludeIf line with
  | some dir => (acc.1, some (ensureTrailingSlash (normalizePath dir)))
  | none =>
    match acc.2 with
    | some currentDir =>
      match matchPathLine line with
      | some cap =>
        let configPath := trimSpace cap
        let configPath :=
          if sStartsWith configPath "~" then home ++ sDrop configPath 1
          else configPath
        (acc.1 ++ [⟨currentDir, extractProfileName configPath, configPath⟩], none)
      | none =>
        if sStartsWith line "[" then (acc.1, none) else acc
    | none => acc

/-- `ParseMappings`: a non-existent shared file yields the empty list;
otherwise scan the file's lines through `parseLine`. -/
def parseMappings (home : String) (gitconfig : Option String) : List Mapping :=
  match gitconfig with
  | none => []
  | some c => ((scanLines c).foldl (parseLine home) ([], none)).1

/-- The exact-then-prefix search of `GetMappingForDirectory` over an
already parsed mapping list and an already normalised query. -/
def lookupMapping (mappings : List Mapping) (normalized : String) :
    Option Mapping :=
  match mappings.find? (fun m => m.directory == normalized) with
  | some m => some m
  | none => mappings.find? (fun m => sStartsWith normalized m.directory)

/-- `GetMappingForDirectory`: normalise the query, parse, then look up. -/
def getMappingForDirectory (home : String) (gitconfig : Option String)
    (dir : String) : Option Mapping :=
  lookupMapping (parseMappings home gitconfig) (normTS dir)

/-- The header line appended by `addIncludeIfBlock`. -/
def includeIfHeader (dir : String) : String :=
  "[includeIf \"gitdir/i:" ++ dir ++ "\"]"

/-- The path-assignment line written by `addIncludeIfBlock`. -/
def pathAssignLine (configPath : String) : String :=
  "    path = " ++ configPath

/-- Does a raw line match the includeIf header pattern with a directory
normalising to `dir`?  (Both editors run the regex on raw lines and ignore
the normalisation error, which cannot occur in the modelled fragment.) -/
def headerMatchesDir (dir line : String) : Bool :=
  match matchIncludeIf line with
  | some d0 => ensureTrailingSlash (normalizePath d0) == dir
  | none => false

/-- The in-place update scan of `addIncludeIfBlock`: at the first header
whose directory normalises to `dir` and whose immediately following line
matches the path pattern, rewrite that following line; otherwise report
failure (`none`), after which the caller appends a fresh block. -/
def updateInPlace (dir configPath : String) : List String → Option (List String)
  | [] => none
  | l :: rest =>
    if headerMatchesDir dir l then
      match rest with
      | r :: rs =>
        if (matchPathLine r).isSome then
          some (l :: pathAssignLine configPath :: rs)
        else (updateInPlace dir configPath rest).map (l :: ·)
      | [] => none
    else (updateInPlace dir configPath rest).map (l :: ·)

/-- `strings.Replace(configPath, home, "~", 1)` guarded by
`strings.HasPrefix(configPath, home)` in `addIncludeIfBlock`. -/
def tildeShorten (home configPath : String) : String :=
  if sStartsWith configPath home then "~" ++ sDrop configPath home.data.length
  else configPath

/-- `addIncludeIfBlock` as a content transformer on the shared file: read
the lines (empty when absent), try the in-place update, otherwise append a
blank separator, the header and the path line; serialise with `joinNl`. -/
def addIncludeIfBlock (home dir configPathRaw : String)
    (gitconfig : Option String) : String :=
  let configPath := tildeShorten home configPathRaw
  let lines := match gitconfig with
               | none => []
               | some c => scanLines c
  let newLines :=
    match updateInPlace dir configPath lines with
    | some ls => ls
    | none => lines ++ ["", includeIfHeader dir, pathAssignLine configPath]
  joinNl newLines

/-- The removal walk of `removeIncludeIfBlock`: drop each header matching
`dir` together with the line immediately following it, and also a blank
line just before the header when the most recently kept line is blank.
`prev` is the previous original line (`lines[i-1]`), `skip` the `skipNext`
flag, `acc` the `newLines` accumulator. -/
def removeLinesAux (dir : String) : List String → Option String → Bool →
    List String → List String
  | [], _, _, acc => acc
  | l :: rest, _, true, acc => removeLinesAux dir rest (some l) false acc
  | l :: rest, prev, false, acc =>
    if headerMatchesDir dir l then
      let blankPrev := match prev with
                       | some p => trimSpace p == ""
                       | none => false
      let blankAcc := match acc.getLast? with
                      | some q => trimSpace q == ""
                      | none => false
      removeLinesAux dir rest (some l) true
        (if blankPrev && blankAcc then acc.dropLast else acc)
    else removeLinesAux dir rest (some l) false (acc ++ [l])

/-- `removeIncludeIfBlock` on a line list. -/
def removeIncludeIfBlockLines (dir : String) (lines : List String) :
    List String :=
  removeLinesAux dir lines none false []

/-- Filesystem state touched by the mapping subsystem: the shared
`~/.gitconfig` (`none` when absent) and the per-profile fragment files. -/
structure FS where
  gitconfig : Option String
  fragments : List (String × String)
deriving DecidableEq, Repr

/-- `os.WriteFile` on the fragment store: full overwrite or create. -/
def upsertFragment (frs : List (String × String)) (path content : String) :
    List (String × String) :=
  if frs.any (fun kv => kv.1 == path) then
    frs.map (fun kv => if kv.1 == path then (path, content) else kv)
  else frs ++ [(path, content)]

/-- `MapProfileToDirectory`: normalise the directory, parse the existing
mappings, fail (without touching anything) when the directory is already
mapped, else write the fragment and upsert the includeIf block.  Returns
the new state and `some errorMessage` on failure. -/
def mapProfileToDirectory (home : String) (prof : Profile) (dir : String)
    (fs : FS) : FS × Option String :=
  let normalizedDir := normTS dir
  let mappings := parseMappings home fs.gitconfig
  match mappings.find? (fun m => m.directory == normalizedDir) with
  | some m =>
    (fs, some ("directory '" ++ dir ++ "' is already mapped to profile '"
               ++ m.profile ++ "'"))
  | none =>
    let configPath := fragmentPathFor home prof.name
    let frs1 := upsertFragment fs.fragments configPath
      (generateProfileConfigContent prof)
    let fs1 : FS := { fs with fragments := frs1 }
    let c1 := addIncludeIfBlock home normalizedDir configPath fs1.gitconfig
    ({ fs1 with gitconfig := some c1 }, none)

/-- `UnmapDirectory`: normalise, then `removeIncludeIfBlock`.  Opening a
non-existent shared file fails (`os.Open` error, surfaced verbatim —
there is no existence check on the removal path). -/
def unmapDirectory (dir : String) (fs : FS) : FS × Option String :=
  let normalizedDir := normTS dir
  match fs.gitconfig with
  | none => (fs, some "failed to open git config")
  | some c =>
    let c1 := joinNl (removeIncludeIfBlockLines normalizedDir (scanLines c))
    ({ fs with gitconfig := some c1 }, none)

/-- Characters acceptable in a filesystem-safe profile name: no path
separator and no whitespace. -/
def fsSafeChar (c : Char) : Bool := !(c == '/') && !(isWS c)

/-- A filesystem-safe profile name. -/
def fsSafeName (s : String) : Bool := s.data.all fsSafeChar

/-- The previous-line tracker after a block of skipped-over lines. -/
def lastOpt (L : List String) (prev : Option String) : Option String :=
  match L.getLast? with
  | some x => some x
  | none => prev

/-! ## Generic list and string helpers -/

theorem data_append (a b : String) : (a ++ b).data = a.data ++ b.data := rfl

theorem mk_data (s : String) : String.mk s.data = s := rfl

theorem nil_isPrefixOf (t : List Char) : List.isPrefixOf [] t = true := by
  cases t <;> rfl

theorem isPrefixOf_append_self (p t : List Char) : p.isPrefixOf (p ++ t) = true := by
  induction p with
  | nil => exact nil_isPrefixOf t
  | cons a as ih => simp [List.isPrefixOf, ih]

theorem isSuffixOf_append_self (s t : List Char) : t.isSuffixOf (s ++ t) = true := by
  simp [List.isSuffixOf, isPrefixOf_append_self t.reverse s.reverse]

theorem dropWhile_cons_false {p : Char → Bool} {a : Char} (l : List Char)
    (h : p a = false) : (a :: l).dropWhile p = a :: l := by
  simp [List.dropWhile_cons, h]

theorem dropWhile_cons_true {p : Char → Bool} {a : Char} (l : List Char)
    (h : p a = true) : (a :: l).dropWhile p = l.dropWhile p := by
  simp [List.dropWhile_cons, h]

theorem length_append_two (d : List Char) (a b : Char) :
    (d ++ [a, b]).length = d.length + 2 := by simp

theorem take_append_two (d : List Char) (a b : Char) :
    (d ++ [a, b]).take ((d ++ [a, b]).length - 2) = d := by
  rw [length_append_two, Nat.add_sub_cancel]
  simp [List.take_left d [a, b]]

theorem dropWS_cons (s : String) (c : Char) (rest : List Char)
    (h : s.data = c :: rest) (hc : isWS c = false) : dropWS s = s := by
  unfold dropWS
  rw [h, dropWhile_cons_false rest hc, ← h, mk_data]

theorem trimRightWS_of_last (s : String) (c : Char) (rest : List Char)
    (h : s.data.reverse = c :: rest) (hc : isWS c = false) : trimRightWS s = s := by
  unfold trimRightWS
  rw [h, dropWhile_cons_false rest hc, ← h, List.reverse_reverse, mk_data]

theorem sStartsWith_of_data (s p : String) (t : List Char)
    (h : s.data = p.data ++ t) : sStartsWith s p = true := by
  unfold sStartsWith
  rw [h]
  exact isPrefixOf_append_self p.data t

theorem data_ne_nil_of_ne_empty (d : String) (h : d ≠ "") : d.data ≠ [] := by
  intro hnil
  exact h (by rw [← mk_data d, hnil])

/-- Full evaluation of the includeIf matcher on a well-shaped header line. -/
theorem matchIncludeIf_eval (line d : String)
    (h2 : line.data =
      "[includeIf".data ++ ' ' :: ("\"gitdir/i:".data ++ (d.data ++ ['"', ']'])))
    (hd : d.data ≠ []) :
    matchIncludeIf line = some d := by
  have hlb : isWS '[' = false := by decide
  have hql : isWS '"' = false := by decide
  have hrb : isWS ']' = false := by decide
  have hsp : isWS ' ' = true := by decide
  have hsplit : ("[includeIf" : String).data = '[' :: ("includeIf" : String).data := by
    decide
  have hline : line.data =
      '[' :: (("includeIf" : String).data ++
        ' ' :: ("\"gitdir/i:".data ++ (d.data ++ ['"', ']']))) := by
    rw [h2, hsplit, List.cons_append]
  have h1 : dropWS line = line := dropWS_cons line '[' _ hline hlb
  have hpre1 : sStartsWith line "[includeIf" = true :=
    sStartsWith_of_data line "[includeIf" _ h2
  have hlen1 : (10 : Nat) = ("[includeIf" : String).data.length := by decide
  have hdropdata : (sDrop line 10).data =
      ' ' :: ("\"gitdir/i:".data ++ (d.data ++ ['"', ']'])) := by
    show line.data.drop 10 = _
    rw [h2, hlen1, List.drop_left]
  have hq : ("\"gitdir/i:" : String).data = '"' :: ("gitdir/i:" : String).data := by
    decide
  have hdropWS2 : (dropWS (sDrop line 10)).data =
      "\"gitdir/i:".data ++ (d.data ++ ['"', ']']) := by
    show (sDrop line 10).data.dropWhile isWS = _
    rw [hdropdata, dropWhile_cons_true _ hsp, hq, List.cons_append,
      dropWhile_cons_false _ hql, ← List.cons_append, ← hq]
  have hpre2 : sStartsWith (dropWS (sDrop line 10)) "\"gitdir/i:" = true := by
    unfold sStartsWith
    rw [hdropWS2]
    exact isPrefixOf_append_self _ _
  have hlen2 : (10 : Nat) = ("\"gitdir/i:" : String).data.length := by decide
  have hdrop3 : (sDrop (dropWS (sDrop line 10)) 10).data = d.data ++ ['"', ']'] := by
    show (dropWS (sDrop line 10)).data.drop 10 = _
    rw [hdropWS2, hlen2, List.drop_left]
  have hrev : (sDrop (dropWS (sDrop line 10)) 10).data.reverse =
      ']' :: ('"' :: d.data.reverse) := by
    rw [hdrop3]
    simp
  have htrim : trimRightWS (sDrop (dropWS (sDrop line 10)) 10) =
      sDrop (dropWS (sDrop line 10)) 10 :=
    trimRightWS_of_last _ ']' _ hrev hrb
  have hsuf : sEndsWith (sDrop (dropWS (sDrop line 10)) 10) "\"]" = true := by
    unfold sEndsWith
    rw [hdrop3]
    exact isSuffixOf_append_self d.data _
  have hlen3 : (sDrop (dropWS (sDrop line 10)) 10).data.length = d.data.length + 2 := by
    rw [hdrop3]
    simp
  have hlt : 2 < (sDrop (dropWS (sDrop line 10)) 10).data.length := by
    rw [hlen3]
    have := List.length_pos.mpr hd
    omega
  have hfinal : sDropRight (sDrop (dropWS (sDrop line 10)) 10) 2 = d := by
    unfold sDropRight
    rw [hlen3, hdrop3, Nat.add_sub_cancel, List.take_left, mk_data]
  simp only [matchIncludeIf, h1, hpre1, if_true]
  rw [hdropdata]
  simp [hsp, htrim, hsuf, hlt, hpre2, hfinal]
  exact hlt

theorem isPrefixOf_cons_false (a b : Char) (as bs : List Char) (h : (a == b) = false) :
    (a :: as).isPrefixOf (b :: bs) = false := by
  simp only [List.isPrefixOf, h, Bool.false_and]

/-- The matcher on the literal header line built by `addIncludeIfBlock`. -/
theorem matchIncludeIf_header (d : String) (hd : d ≠ "") :
    matchIncludeIf (includeIfHeader d) = some d := by
  apply matchIncludeIf_eval
  · show (("[includeIf \"gitdir/i:" ++ d) ++ "\"]").data = _
    rw [data_append, data_append]
    rw [show ("[includeIf \"gitdir/i:" : String).data
          = "[includeIf".data ++ ' ' :: ("\"gitdir/i:" : String).data from by decide]
    rw [show ("\"]" : String).data = ['"', ']'] from by decide]
    simp
  · exact data_ne_nil_of_ne_empty d hd

/-- A line whose first non-whitespace character is not `[` cannot match the
header pattern. -/
theorem matchIncludeIf_eq_none_of_startsWith (line : String)
    (h : sStartsWith (dropWS line) "[includeIf" = false) :
    matchIncludeIf line = none := by
  simp [matchIncludeIf, h]

theorem matchIncludeIf_empty : matchIncludeIf "" = none := by decide

theorem matchPathLine_empty : matchPathLine "" = none := by decide

theorem headerMatchesDir_empty (dir : String) : headerMatchesDir dir "" = false := by
  simp [headerMatchesDir, matchIncludeIf_empty]

theorem mk_cons_ne_empty (c : Char) (l : List Char) : String.mk (c :: l) ≠ "" := by
  intro h
  have : (String.mk (c :: l)).data = ("" : String).data := by rw [h]
  simp at this

theorem dropWhile_isWS_space (l : List Char) :
    (' ' :: l).dropWhile isWS = l.dropWhile isWS :=
  dropWhile_cons_true l (by decide)

/-- Evaluation of the path matcher on `"path = " ++ v` for a value starting
with a non-whitespace character. -/
theorem matchPathLine_eval (v : String) (c : Char) (vrest : List Char)
    (hv : v.data = c :: vrest) (hc : isWS c = false) :
    matchPathLine ("path = " ++ v) = some v := by
  have hdata : ("path = " ++ v).data =
      "path".data ++ (' ' :: '=' :: ' ' :: v.data) := by
    rw [data_append]
    rw [show ("path = " : String).data = "path".data ++ [' ', '=', ' '] from by decide]
    simp
  have hp : isWS 'p' = false := by decide
  have heq : isWS '=' = false := by decide
  have hline : ("path = " ++ v).data = 'p' :: ("ath".data ++ (' ' :: '=' :: ' ' :: v.data)) := by
    rw [hdata, show ("path" : String).data = 'p' :: ("ath" : String).data from by decide,
      List.cons_append]
  have h1 : dropWS ("path = " ++ v) = "path = " ++ v :=
    dropWS_cons _ 'p' _ hline hp
  have hpre : sStartsWith ("path = " ++ v) "path" = true :=
    sStartsWith_of_data _ "path" _ hdata
  have hlen : (4 : Nat) = ("path" : String).data.length := by decide
  have hdrop : (sDrop ("path = " ++ v) 4).data = ' ' :: '=' :: ' ' :: v.data := by
    show ("path = " ++ v).data.drop 4 = _
    rw [hdata, hlen, List.drop_left]
  have hdws : (dropWS (sDrop ("path = " ++ v) 4)).data = '=' :: ' ' :: v.data := by
    show (sDrop ("path = " ++ v) 4).data.dropWhile isWS = _
    rw [hdrop, dropWhile_isWS_space, dropWhile_cons_false _ heq]
  have hpre2 : sStartsWith (dropWS (sDrop ("path = " ++ v) 4)) "=" = true := by
    unfold sStartsWith
    rw [hdws, show ("=" : String).data = ['='] from by decide]
    exact isPrefixOf_append_self ['='] (' ' :: v.data)
  have hdrop1 : (sDrop (dropWS (sDrop ("path = " ++ v) 4)) 1).data = ' ' :: v.data := by
    show (dropWS (sDrop ("path = " ++ v) 4)).data.drop 1 = _
    rw [hdws]
    rfl
  have hrest : sDrop (dropWS (sDrop ("path = " ++ v) 4)) 1 = String.mk (' ' :: v.data) := by
    rw [← hdrop1, mk_data]
  have hrestne : sDrop (dropWS (sDrop ("path = " ++ v) 4)) 1 ≠ "" := by
    rw [hrest]
    exact mk_cons_ne_empty _ _
  have ht : dropWS (sDrop (dropWS (sDrop ("path = " ++ v) 4)) 1) = v := by
    have hdt : (dropWS (sDrop (dropWS (sDrop ("path = " ++ v) 4)) 1)).data = v.data := by
      show (sDrop (dropWS (sDrop ("path = " ++ v) 4)) 1).data.dropWhile isWS = v.data
      rw [hdrop1, dropWhile_isWS_space, hv, dropWhile_cons_false _ hc]
    rw [← mk_data (dropWS (sDrop (dropWS (sDrop ("path = " ++ v) 4)) 1)), hdt, mk_data]
  have htne : dropWS (sDrop (dropWS (sDrop ("path = " ++ v) 4)) 1) ≠ "" := by
    rw [ht, ← mk_data v, hv]
    exact mk_cons_ne_empty _ _
  have hvne : v ≠ "" := by
    rw [← mk_data v, hv]
    exact mk_cons_ne_empty _ _
  simp only [matchPathLine, h1, hpre, if_true, hpre2, hrestne, ht, htne,
    if_false, if_neg hrestne, if_neg htne, if_neg hvne]

theorem eq_of_data_eq (a b : String) (h : a.data = b.data) : a = b := by
  rw [← mk_data a, h, mk_data]

theorem trimSpace_empty : trimSpace "" = "" := by decide

theorem trimSpace_of_ends (s : String) (c1 c2 : Char) (r1 r2 : List Char)
    (h1 : s.data = c1 :: r1) (h2 : s.data.reverse = c2 :: r2)
    (hc1 : isWS c1 = false) (hc2 : isWS c2 = false) : trimSpace s = s := by
  unfold trimSpace
  rw [dropWS_cons s c1 r1 h1 hc1, trimRightWS_of_last s c2 r2 h2 hc2]

/-- The header line written by the editor has no surrounding whitespace. -/
theorem trimSpace_header (d : String) :
    trimSpace (includeIfHeader d) = includeIfHeader d := by
  have hdata : (includeIfHeader d).data =
      '[' :: (("includeIf \"gitdir/i:" : String).data ++ (d.data ++ ['"', ']'])) := by
    show ((("[includeIf \"gitdir/i:" ++ d) ++ "\"]")).data = _
    rw [data_append, data_append]
    rw [show ("[includeIf \"gitdir/i:" : String).data
          = '[' :: ("includeIf \"gitdir/i:" : String).data from by decide]
    rw [show ("\"]" : String).data = ['"', ']'] from by decide]
    simp
  have hrev : (includeIfHeader d).data.reverse =
      ']' :: ('"' :: (d.data.reverse ++
        ("includeIf \"gitdir/i:" : String).data.reverse ++ ['['])) := by
    rw [hdata]
    simp
  exact trimSpace_of_ends _ '[' ']' _ _ hdata hrev (by decide) (by decide)

/-- Trimming the path-assignment line drops exactly the four leading
spaces, for a value with non-whitespace first and last characters. -/
theorem trimSpace_pathAssign (v : String) (c cl : Char) (vrest rl : List Char)
    ( _hv : v.data = c :: vrest) ( _hc : isWS c = false)
    (hlast : v.data.reverse = cl :: rl) (hcl : isWS cl = false) :
    trimSpace (pathAssignLine v) = "path = " ++ v := by
  have hdata : (pathAssignLine v).data =
      ' ' :: ' ' :: ' ' :: ' ' :: ("path = " ++ v).data := by
    show ("    path = " ++ v).data = _
    rw [data_append, data_append]
    rw [show ("    path = " : String).data
          = ' ' :: ' ' :: ' ' :: ' ' :: ("path = " : String).data from by decide]
    simp
  have hdws : dropWS (pathAssignLine v) = "path = " ++ v := by
    apply eq_of_data_eq
    show (pathAssignLine v).data.dropWhile isWS = _
    rw [hdata, dropWhile_isWS_space, dropWhile_isWS_space, dropWhile_isWS_space,
      dropWhile_isWS_space]
    have hline : ("path = " ++ v).data =
        'p' :: (("ath = " : String).data ++ v.data) := by
      rw [data_append,
        show ("path = " : String).data = 'p' :: ("ath = " : String).data from by decide]
      simp
    rw [hline, dropWhile_cons_false _ (by decide : isWS 'p' = false), ← hline]
  have hrev : ("path = " ++ v).data.reverse =
      cl :: (rl ++ ("path = " : String).data.reverse) := by
    rw [data_append]
    rw [List.reverse_append, hlast]
    simp
  unfold trimSpace
  rw [hdws, trimRightWS_of_last _ cl _ hrev hcl]

/-! ## Parser lemmas -/

theorem parseLine_empty (home : String) (A : List Mapping × Option String) :
    parseLine home A "" = A := by
  rcases A with ⟨ms, st⟩
  rcases st with _ | cd
  · simp [parseLine, trimSpace_empty, matchIncludeIf_empty]
  · simp [parseLine, trimSpace_empty, matchIncludeIf_empty, matchPathLine_empty,
      show sStartsWith "" "[" = false from by decide]

theorem parseLine_shape (home : String) (acc : List Mapping) (st : Option String)
    (l : String) :
    parseLine home (acc, st) l
      = (acc ++ (parseLine home ([], st) l).1, (parseLine home ([], st) l).2) := by
  unfold parseLine
  rcases h : matchIncludeIf (trimSpace l) with _ | d0
  · rcases st with _ | cd
    · simp [h]
    · rcases hp : matchPathLine (trimSpace l) with _ | cap
      · by_cases hb : sStartsWith (trimSpace l) "[" = true
        · simp [h, hp, hb]
        · simp [h, hp, hb]
      · simp [h, hp]
  · simp [h]

theorem parse_foldl_shape (home : String) (L : List String) (acc : List Mapping)
    (st : Option String) :
    L.foldl (parseLine home) (acc, st)
      = (acc ++ (L.foldl (parseLine home) ([], st)).1,
         (L.foldl (parseLine home) ([], st)).2) := by
  induction L generalizing acc st with
  | nil => simp
  | cons l L ih =>
    rw [List.foldl_cons, List.foldl_cons, parseLine_shape]
    rw [ih (acc ++ (parseLine home ([], st) l).1) (parseLine home ([], st) l).2]
    rw [show L.foldl (parseLine home) (parseLine home ([], st) l)
          = L.foldl (parseLine home)
              ((parseLine home ([], st) l).1, (parseLine home ([], st) l).2) from rfl]
    rw [ih (parseLine home ([], st) l).1 (parseLine home ([], st) l).2]
    simp

/-- Every mapping produced by the scan owes its directory either to the
initial accumulator, to the pending directory of the initial state, or to a
header line whose captured directory normalises to it. -/
theorem parse_mem_directory (home : String) (L : List String) :
    ∀ (acc : List Mapping) (st : Option String) (m : Mapping),
      m ∈ (L.foldl (parseLine home) (acc, st)).1 →
      m ∈ acc ∨ (∃ d0, st = some d0 ∧ m.directory = d0) ∨
      (∃ l ∈ L, ∃ c0, matchIncludeIf (trimSpace l) = some c0 ∧
        m.directory = ensureTrailingSlash (normalizePath c0)) := by
  induction L with
  | nil =>
    intro acc st m hm
    exact Or.inl hm
  | cons l L ih =>
    intro acc st m hm
    rw [List.foldl_cons] at hm
    rcases h : matchIncludeIf (trimSpace l) with _ | d0
    · rcases st with _ | cd
      · have hstep : parseLine home (acc, none) l = (acc, none) := by
          simp [parseLine, h]
        rw [hstep] at hm
        rcases ih acc none m hm with h1 | ⟨d0, h2, _⟩ | ⟨l', hl', h3⟩
        · exact Or.inl h1
        · exact absurd h2 (by simp)
        · exact Or.inr (Or.inr ⟨l', List.mem_cons_of_mem l hl', h3⟩)
      · rcases hp : matchPathLine (trimSpace l) with _ | cap
        · by_cases hb : sStartsWith (trimSpace l) "[" = true
          · have hstep : parseLine home (acc, some cd) l = (acc, none) := by
              simp [parseLine, h, hp, hb]
            rw [hstep] at hm
            rcases ih acc none m hm with h1 | ⟨d0, h2, _⟩ | ⟨l', hl', h3⟩
            · exact Or.inl h1
            · exact absurd h2 (by simp)
            · exact Or.inr (Or.inr ⟨l', List.mem_cons_of_mem l hl', h3⟩)
          · have hstep : parseLine home (acc, some cd) l = (acc, some cd) := by
              simp [parseLine, h, hp, hb]
            rw [hstep] at hm
            rcases ih acc (some cd) m hm with h1 | ⟨d0, h2, h3⟩ | ⟨l', hl', h3⟩
            · exact Or.inl h1
            · exact Or.inr (Or.inl ⟨d0, h2, h3⟩)
            · exact Or.inr (Or.inr ⟨l', List.mem_cons_of_mem l hl', h3⟩)
        · set cp := (if sStartsWith (trimSpace cap) "~" = true
              then home ++ sDrop (trimSpace cap) 1 else trimSpace cap) with hcp
          set x : Mapping := ⟨cd, extractProfileName cp, cp⟩ with hxdef
          have hx : x.directory = cd := rfl
          have hstep : parseLine home (acc, some cd) l = (acc ++ [x], none) := by
            simp [parseLine, h, hp, hxdef, hcp]
          rw [hstep] at hm
          rcases ih (acc ++ [x]) none m hm with h1 | ⟨d0, h2, _⟩ | ⟨l', hl', h3⟩
          · rcases List.mem_append.mp h1 with h1a | h1b
            · exact Or.inl h1a
            · have : m = x := by simpa using h1b
              exact Or.inr (Or.inl ⟨cd, rfl, by rw [this, hx]⟩)
          · exact absurd h2 (by simp)
          · exact Or.inr (Or.inr ⟨l', List.mem_cons_of_mem l hl', h3⟩)
    · have hstep : parseLine home (acc, st) l =
          (acc, some (ensureTrailingSlash (normalizePath d0))) := by
        simp [parseLine, h]
      rw [hstep] at hm
      rcases ih acc (some (ensureTrailingSlash (normalizePath d0))) m hm with
        h1 | ⟨d1, h2, h3⟩ | ⟨l', hl', h3⟩
      · exact Or.inl h1
      · refine Or.inr (Or.inr ⟨l, List.mem_cons_self l L, d0, h, ?_⟩)
        rw [h3]
        injection h2 with h2
        rw [h2]
      · exact Or.inr (Or.inr ⟨l', List.mem_cons_of_mem l hl', h3⟩)

/-- If no line of the file is an includeIf header for `dir` (after the
parser's trimming), then parsing yields no mapping for `dir`. -/
theorem parse_no_dir_of_no_header (home c dir : String)
    (h : ∀ l ∈ scanLines c, headerMatchesDir dir (trimSpace l) = false) :
    ∀ m ∈ parseMappings home (some c), m.directory ≠ dir := by
  intro m hm heq
  rcases parse_mem_directory home (scanLines c) [] none m hm with
    h1 | ⟨d0, h2, _⟩ | ⟨l, hl, c0, hc0, hdir⟩
  · exact absurd h1 (List.not_mem_nil m)
  · exact absurd h2 (by simp)
  · have hb := h l hl
    unfold headerMatchesDir at hb
    rw [hc0] at hb
    rw [hdir] at heq
    simp [heq] at hb

/-! ## Editor lemmas -/

theorem updateInPlace_eq_none (dir cp : String) (L : List String)
    (h : ∀ l ∈ L, headerMatchesDir dir l = false) :
    updateInPlace dir cp L = none := by
  induction L with
  | nil => rfl
  | cons l L ih =>
    have hl := h l (List.mem_cons_self l L)
    have hrec := ih (fun x hx => h x (List.mem_cons_of_mem l hx))
    simp [updateInPlace, hl, hrec]

theorem removeAux_no_match (dir : String) (L : List String)
    (h : ∀ l ∈ L, headerMatchesDir dir l = false) :
    ∀ (prev : Option String) (acc : List String),
      removeLinesAux dir L prev false acc = acc ++ L := by
  induction L with
  | nil =>
    intro prev acc
    simp [removeLinesAux]
  | cons l L ih =>
    intro prev acc
    have hl := h l (List.mem_cons_self l L)
    rw [show removeLinesAux dir (l :: L) prev false acc
        = removeLinesAux dir L (some l) false (acc ++ [l]) from by
      simp [removeLinesAux, hl]]
    rw [ih (fun x hx => h x (List.mem_cons_of_mem l hx)) (some l) (acc ++ [l])]
    simp

theorem lastOpt_cons (l : String) (L : List String) (prev : Option String) :
    lastOpt (l :: L) prev = lastOpt L (some l) := by
  cases L with
  | nil => rfl
  | cons a as =>
    rcases h : (a :: as).getLast? with _ | x
    · simp at h
    · simp [lastOpt, h]

theorem removeAux_append_no_match (dir : String) (L : List String)
    (h : ∀ l ∈ L, headerMatchesDir dir l = false) :
    ∀ (rest : List String) (prev : Option String) (acc : List String),
      removeLinesAux dir (L ++ rest) prev false acc
        = removeLinesAux dir rest (lastOpt L prev) false (acc ++ L) := by
  induction L with
  | nil =>
    intro rest prev acc
    simp [lastOpt]
  | cons l L ih =>
    intro rest prev acc
    have hl := h l (List.mem_cons_self l L)
    rw [List.cons_append]
    rw [show removeLinesAux dir (l :: (L ++ rest)) prev false acc
        = removeLinesAux dir (L ++ rest) (some l) false (acc ++ [l]) from by
      simp [removeLinesAux, hl]]
    rw [ih (fun x hx => h x (List.mem_cons_of_mem l hx)) rest (some l) (acc ++ [l])]
    rw [lastOpt_cons]
    simp

/-- Removing right after an append: the separator blank line, the header
and the following path line are dropped and everything else kept. -/
theorem removeAux_block (dir hdr pth : String) (p : Option String)
    (A : List String) (hhdr : headerMatchesDir dir hdr = true) :
    removeLinesAux dir ["", hdr, pth] p false A = A := by
  rw [show removeLinesAux dir ("" :: [hdr, pth]) p false A
      = removeLinesAux dir [hdr, pth] (some "") false (A ++ [""]) from by
    simp [removeLinesAux, headerMatchesDir_empty]]
  rw [show removeLinesAux dir (hdr :: [pth]) (some "") false (A ++ [""])
      = removeLinesAux dir [pth] (some hdr) true A from by
    simp [removeLinesAux, hhdr, trimSpace_empty, List.getLast?_concat,
      List.dropLast_concat]]
  rfl

/-! ## Serialisation lemmas: splitting and joining lines -/

theorem splitNlAux_ne_nil (cs cur : List Char) : splitNlAux cs cur ≠ [] := by
  induction cs generalizing cur with
  | nil => simp [splitNlAux]
  | cons c cs ih =>
    by_cases h : c = '\n'
    · simp [splitNlAux, h]
    · simpa [splitNlAux, h] using ih (c :: cur)

theorem joinNl_cons (l : String) (ls : List String) (h : ls ≠ []) :
    joinNl (l :: ls) = l ++ "\n" ++ joinNl ls := by
  cases ls with
  | nil => exact absurd rfl h
  | cons a as => rfl

theorem joinNl_splitNlAux (cs cur : List Char) :
    joinNl (splitNlAux cs cur) = String.mk (cur.reverse ++ cs) := by
  induction cs generalizing cur with
  | nil => simp [splitNlAux, joinNl]
  | cons c cs ih =>
    by_cases h : c = '\n'
    · rw [show splitNlAux (c :: cs) cur
          = String.mk cur.reverse :: splitNlAux cs [] from by simp [splitNlAux, h]]
      rw [joinNl_cons _ _ (splitNlAux_ne_nil cs []), ih []]
      apply eq_of_data_eq
      rw [data_append, data_append]
      simp [h, show ("\n" : String).data = ['\n'] from by decide]
    · rw [show splitNlAux (c :: cs) cur = splitNlAux cs (c :: cur) from by
        simp [splitNlAux, h]]
      rw [ih (c :: cur)]
      simp

theorem joinNl_splitNl (s : String) : joinNl (splitNl s) = s := by
  unfold splitNl
  rw [joinNl_splitNlAux]
  simp [mk_data]

theorem splitNlAux_append_nl (y : List Char) :
    ∀ cur, splitNlAux (y ++ ['\n']) cur = splitNlAux y cur ++ [""] := by
  induction y with
  | nil =>
    intro cur
    simp [splitNlAux]
  | cons c cs ih =>
    intro cur
    by_cases h : c = '\n'
    · simp [splitNlAux, h, ih]
    · simp [splitNlAux, h, ih (c :: cur)]

theorem splitNlAux_no_nl (cs : List Char) (h : '\n' ∉ cs) :
    ∀ cur, splitNlAux cs cur = [String.mk (cur.reverse ++ cs)] := by
  induction cs with
  | nil => intro cur; simp [splitNlAux]
  | cons c cs ih =>
    intro cur
    have hc : ¬(c = '\n') := fun hh => h (hh ▸ List.mem_cons_self c cs)
    rw [show splitNlAux (c :: cs) cur = splitNlAux cs (c :: cur) from by
      simp [splitNlAux, hc]]
    rw [ih (fun hh => h (List.mem_cons_of_mem c hh)) (c :: cur)]
    simp

theorem splitNlAux_block (l : List Char) (h : '\n' ∉ l) :
    ∀ (t : List Char) (cur : List Char),
      splitNlAux (l ++ '\n' :: t) cur
        = String.mk (cur.reverse ++ l) :: splitNlAux t [] := by
  induction l with
  | nil => intro t cur; simp [splitNlAux]
  | cons c cs ih =>
    intro t cur
    have hc : ¬(c = '\n') := fun hh => h (hh ▸ List.mem_cons_self c cs)
    rw [List.cons_append]
    rw [show splitNlAux (c :: (cs ++ '\n' :: t)) cur
        = splitNlAux (cs ++ '\n' :: t) (c :: cur) from by simp [splitNlAux, hc]]
    rw [ih (fun hh => h (List.mem_cons_of_mem c hh)) t (c :: cur)]
    simp

theorem splitNl_joinNl (ls : List String) (hne : ls ≠ [])
    (hnl : ∀ l ∈ ls, '\n' ∉ l.data) :
    splitNl (joinNl ls) = ls := by
  induction ls with
  | nil => exact absurd rfl hne
  | cons l ls ih =>
    cases ls with
    | nil =>
      unfold splitNl
      rw [show joinNl [l] = l from rfl]
      rw [splitNlAux_no_nl l.data (hnl l (List.mem_cons_self l [])) []]
      simp [mk_data]
    | cons l2 rest =>
      rw [joinNl_cons l (l2 :: rest) (by simp)]
      unfold splitNl
      rw [show (l ++ "\n" ++ joinNl (l2 :: rest)).data
          = l.data ++ '\n' :: (joinNl (l2 :: rest)).data from by
        rw [data_append, data_append]
        simp [show ("\n" : String).data = ['\n'] from by decide]]
      rw [splitNlAux_block l.data (hnl l (List.mem_cons_self l _)) _ []]
      rw [show splitNlAux (joinNl (l2 :: rest)).data [] = splitNl (joinNl (l2 :: rest)) from rfl]
      rw [ih (by simp) (fun x hx => hnl x (List.mem_cons_of_mem l hx))]
      simp [mk_data]

theorem isSuffixOf_singleton (a : Char) (l : List Char)
    (h : [a].isSuffixOf l = true) : ∃ y, l = y ++ [a] := by
  unfold List.isSuffixOf at h
  rcases hrev : l.reverse with _ | ⟨b, t⟩
  · rw [hrev] at h
    simp [List.isPrefixOf] at h
  · rw [hrev] at h
    have hab : a = b := by
      have hb : (a == b) = true := by
        simpa [List.isPrefixOf, Bool.and_eq_true] using h
      exact eq_of_beq hb
    refine ⟨t.reverse, ?_⟩
    rw [← List.reverse_reverse l, hrev, hab]
    simp

theorem endsWith_nl_data (c : String) (h : sEndsWith c "\n" = true) :
    ∃ y, c.data = y ++ ['\n'] := by
  unfold sEndsWith at h
  exact isSuffixOf_singleton '\n' c.data (by
    rw [show ("\n" : String).data = ['\n'] from by decide] at h
    exact h)

theorem endsWith_cr_data (c : String) (h : sEndsWith c "\r" = true) :
    ∃ y, c.data = y ++ ['\r'] := by
  unfold sEndsWith at h
  exact isSuffixOf_singleton '\r' c.data (by
    rw [show ("\r" : String).data = ['\r'] from by decide] at h
    exact h)

theorem dropCR_eq_self (s : String) (h : sEndsWith s "\r" = false) :
    dropCR s = s := by
  unfold dropCR
  rw [h]
  rfl

theorem dropCR_eq_self_of_not_mem (s : String) (h : '\r' ∉ s.data) :
    dropCR s = s := by
  apply dropCR_eq_self
  rcases hb : sEndsWith s "\r" with _ | _
  · rfl
  · rcases endsWith_cr_data s hb with ⟨y, hy⟩
    exact absurd (by rw [hy]; simp : '\r' ∈ s.data) h

theorem sEndsWith_false_of_last (s : String) (c : Char) (r : List Char)
    (h : s.data.reverse = c :: r) (hc : (c == '\r') = false) :
    sEndsWith s "\r" = false := by
  unfold sEndsWith
  rw [show ("\r" : String).data = ['\r'] from by decide]
  unfold List.isSuffixOf
  rw [h]
  show ('\r' :: []).isPrefixOf (c :: r) = false
  have hne : ¬(c = '\r') := by
    intro e
    rw [e] at hc
    simp at hc
  exact isPrefixOf_cons_false '\r' c [] r
    (beq_eq_false_iff_ne.mpr (fun e => hne e.symm))

theorem getLast?_cons_ne (x : String) (L : List String) (h : L ≠ []) :
    (x :: L).getLast? = L.getLast? := by
  cases L with
  | nil => exact absurd rfl h
  | cons a as => exact List.getLast?_cons_cons

/-- A final token of the newline split is empty only when the character
list is empty together with the current token, or ends in a newline. -/
theorem splitNlAux_getLast_empty (cs : List Char) :
    ∀ cur, (splitNlAux cs cur).getLast? = some "" →
      (∃ y, cs = y ++ ['\n']) ∨ (cs = [] ∧ cur = []) := by
  induction cs with
  | nil =>
    intro cur h
    simp [splitNlAux] at h
    right
    refine ⟨rfl, ?_⟩
    have : cur.reverse = [] := by
      have := congrArg String.data h
      simpa using this
    simpa using this
  | cons c cs ih =>
    intro cur h
    by_cases hc : c = '\n'
    · subst hc
      rw [show splitNlAux ('\n' :: cs) cur
          = String.mk cur.reverse :: splitNlAux cs [] from by simp [splitNlAux]] at h
      rw [getLast?_cons_ne _ _ (splitNlAux_ne_nil cs [])] at h
      rcases ih [] h with ⟨y, hy⟩ | ⟨h1, _⟩
      · exact Or.inl ⟨'\n' :: y, by rw [hy, List.cons_append]⟩
      · exact Or.inl ⟨[], by rw [h1]; rfl⟩
    · rw [show splitNlAux (c :: cs) cur = splitNlAux cs (c :: cur) from by
        simp [splitNlAux, hc]] at h
      rcases ih (c :: cur) h with ⟨y, hy⟩ | ⟨_, h2⟩
      · exact Or.inl ⟨c :: y, by rw [hy, List.cons_append]⟩
      · exact absurd h2 (by simp)

theorem dropLastEmpty_of_getLast (ts : List String) (h : ts.getLast? ≠ some "") :
    dropLastEmpty ts = ts := by
  unfold dropLastEmpty
  rw [if_neg h]

/-- Tokens of the newline split draw their characters from the input. -/
theorem splitNlAux_subset (cs : List Char) :
    ∀ (cur : List Char) (t : String), t ∈ splitNlAux cs cur →
      ∀ ch ∈ t.data, ch ∈ cur ∨ ch ∈ cs := by
  induction cs with
  | nil =>
    intro cur t ht ch hch
    rw [show splitNlAux [] cur = [String.mk cur.reverse] from rfl] at ht
    have : t = String.mk cur.reverse := by simpa using ht
    rw [this] at hch
    exact Or.inl (by simpa using hch)
  | cons c cs ih =>
    intro cur t ht ch hch
    by_cases hc : c = '\n'
    · rw [show splitNlAux (c :: cs) cur
          = String.mk cur.reverse :: splitNlAux cs [] from by simp [splitNlAux, hc]] at ht
      rcases List.mem_cons.mp ht with h1 | h2
      · rw [h1] at hch
        exact Or.inl (by simpa using hch)
      · rcases ih [] t h2 ch hch with h3 | h3
        · exact absurd h3 (List.not_mem_nil ch)
        · exact Or.inr (List.mem_cons_of_mem c h3)
    · rw [show splitNlAux (c :: cs) cur = splitNlAux cs (c :: cur) from by
        simp [splitNlAux, hc]] at ht
      rcases ih (c :: cur) t ht ch hch with h3 | h3
      · rcases List.mem_cons.mp h3 with h4 | h4
        · exact Or.inr (h4 ▸ List.mem_cons_self c cs)
        · exact Or.inl h4
      · exact Or.inr (List.mem_cons_of_mem c h3)

theorem splitNl_subset (s : String) (t : String) (ht : t ∈ splitNl s) :
    ∀ ch ∈ t.data, ch ∈ s.data := by
  intro ch hch
  rcases splitNlAux_subset s.data [] t ht ch hch with h | h
  · exact absurd h (List.not_mem_nil ch)
  · exact h

theorem mem_dropLastEmpty (ts : List String) (t : String)
    (h : t ∈ dropLastEmpty ts) : t ∈ ts := by
  unfold dropLastEmpty at h
  by_cases hb : ts.getLast? = some ""
  · rw [if_pos hb] at h
    exact List.dropLast_subset ts h
  · rw [if_neg hb] at h
    exact h

/-- Every scanned line's characters come from the file content. -/
theorem scanLines_subset (c : String) (l : String) (hl : l ∈ scanLines c) :
    ∀ ch ∈ l.data, ch ∈ c.data := by
  intro ch hch
  unfold scanLines at hl
  by_cases hc : c = ""
  · rw [if_pos hc] at hl
    exact absurd hl (List.not_mem_nil l)
  · rw [if_neg hc] at hl
    rcases List.mem_map.mp hl with ⟨t, ht, hdt⟩
    have htmem : t ∈ splitNl c := mem_dropLastEmpty _ t ht
    apply splitNl_subset c t htmem
    rw [← hdt] at hch
    unfold dropCR at hch
    by_cases hb : sEndsWith t "\r" = true
    · rw [if_pos hb] at hch
      exact List.take_subset _ _ hch
    · rw [if_neg (by simpa using hb)] at hch
      exact hch

theorem splitNlAux_no_nl_tokens (cs : List Char) :
    ∀ (cur : List Char), '\n' ∉ cur →
      ∀ t ∈ splitNlAux cs cur, '\n' ∉ t.data := by
  induction cs with
  | nil =>
    intro cur hcur t ht
    have : t = String.mk cur.reverse := by simpa [splitNlAux] using ht
    rw [this]
    simpa using hcur
  | cons c cs ih =>
    intro cur hcur t ht
    by_cases hc : c = '\n'
    · rw [show splitNlAux (c :: cs) cur
          = String.mk cur.reverse :: splitNlAux cs [] from by simp [splitNlAux, hc]] at ht
      rcases List.mem_cons.mp ht with h1 | h2
      · rw [h1]
        simpa using hcur
      · exact ih [] (List.not_mem_nil '\n') t h2
    · rw [show splitNlAux (c :: cs) cur = splitNlAux cs (c :: cur) from by
        simp [splitNlAux, hc]] at ht
      refine ih (c :: cur) ?_ t ht
      intro hmem
      rcases List.mem_cons.mp hmem with h1 | h1
      · exact hc h1.symm
      · exact hcur h1

/-- Scanned lines contain no newline character. -/
theorem scanLines_no_nl (c : String) (l : String) (hl : l ∈ scanLines c) :
    '\n' ∉ l.data := by
  intro hch
  unfold scanLines at hl
  by_cases hc : c = ""
  · rw [if_pos hc] at hl
    exact absurd hl (List.not_mem_nil l)
  · rw [if_neg hc] at hl
    rcases List.mem_map.mp hl with ⟨t, ht, hdt⟩
    have htmem : t ∈ splitNl c := mem_dropLastEmpty _ t ht
    have hnl : '\n' ∈ t.data := by
      rw [← hdt] at hch
      unfold dropCR at hch
      by_cases hb : sEndsWith t "\r" = true
      · rw [if_pos hb] at hch
        exact List.take_subset _ _ hch
      · rw [if_neg (by simpa using hb)] at hch
        exact hch
    exact splitNlAux_no_nl_tokens c.data [] (List.not_mem_nil '\n') t htmem hnl

/-- Rescanning a serialised line list recovers the lines up to the
scanner's carriage-return stripping. -/
theorem scanLines_joinNl_map (ls : List String) (hne : ls ≠ [])
    (hnl : ∀ l ∈ ls, '\n' ∉ l.data) (hlast : ls.getLast? ≠ some "") :
    scanLines (joinNl ls) = ls.map dropCR := by
  have hsplit : splitNl (joinNl ls) = ls := splitNl_joinNl ls hne hnl
  have hjne : joinNl ls ≠ "" := by
    intro he
    have : splitNl (joinNl ls) = splitNl "" := by rw [he]
    rw [hsplit] at this
    have h1 : ls = [""] := by
      rw [this]
      decide
    rw [h1] at hlast
    exact hlast rfl
  unfold scanLines
  rw [if_neg hjne, hsplit, dropLastEmpty_of_getLast ls hlast]

/-- Rescanning a serialised list of clean lines is the identity. -/
theorem scanLines_joinNl (ls : List String) (hne : ls ≠ [])
    (hnl : ∀ l ∈ ls, '\n' ∉ l.data) (hlast : ls.getLast? ≠ some "")
    (hcr : ∀ l ∈ ls, sEndsWith l "\r" = false) :
    scanLines (joinNl ls) = ls := by
  rw [scanLines_joinNl_map ls hne hnl hlast]
  calc ls.map dropCR = ls.map id := List.map_congr_left (fun l hl => by
        rw [dropCR_eq_self l (hcr l hl)]; rfl)
    _ = ls := List.map_id ls

/-- Serialising the scan of a carriage-return-free file keeps every byte
except a single terminating newline, which is dropped. -/
theorem joinNl_scanLines (c : String) (hcr : '\r' ∉ c.data) :
    joinNl (scanLines c) = (if sEndsWith c "\n" = true then sDropRight c 1 else c) := by
  by_cases hc : c = ""
  · subst hc
    rw [show scanLines "" = [] from rfl]
    rw [show sEndsWith "" "\n" = false from by decide]
    rfl
  · have hmap : ∀ ts : List String, (∀ t ∈ ts, t ∈ splitNl c) → ts.map dropCR = ts := by
      intro ts hts
      calc ts.map dropCR = ts.map id := List.map_congr_left (fun t ht => by
            rw [dropCR_eq_self_of_not_mem t (fun hmem =>
              hcr (splitNl_subset c t (hts t ht) '\r' hmem))]
            rfl)
        _ = ts := List.map_id ts
    unfold scanLines
    rw [if_neg hc]
    by_cases hb : sEndsWith c "\n" = true
    · rcases endsWith_nl_data c hb with ⟨y, hy⟩
      have hsplit : splitNl c = splitNl (String.mk y) ++ [""] := by
        unfold splitNl
        rw [hy]
        exact splitNlAux_append_nl y []
      have hlast : (splitNl c).getLast? = some "" := by
        rw [hsplit]
        exact List.getLast?_concat _
      have hdropR : sDropRight c 1 = String.mk y := by
        unfold sDropRight
        rw [hy]
        simp
      rw [hb, if_pos rfl]
      unfold dropLastEmpty
      rw [if_pos hlast, hsplit, List.dropLast_concat]
      rw [hmap (splitNl (String.mk y)) (fun t ht => by rw [hsplit]; exact List.mem_append_left _ ht)]
      rw [show splitNl (String.mk y) = splitNlAux y [] from rfl]
      rw [show joinNl (splitNlAux y []) = String.mk ([].reverse ++ y) from
        joinNl_splitNlAux y []]
      rw [hdropR]
      simp
    · have hb' : sEndsWith c "\n" = false := by simpa using hb
      have hlast : (splitNl c).getLast? ≠ some "" := by
        intro hsome
        rcases splitNlAux_getLast_empty c.data [] hsome with ⟨y, hy⟩ | ⟨h1, _⟩
        · have : sEndsWith c "\n" = true := by
            unfold sEndsWith
            rw [show ("\n" : String).data = ['\n'] from by decide, hy]
            exact isSuffixOf_append_self y ['\n']
          rw [this] at hb'
          exact absurd hb' (by simp)
        · exact hc (by rw [← mk_data c, h1])
      rw [hb', if_neg (by simp)]
      rw [dropLastEmpty_of_getLast _ hlast]
      rw [hmap (splitNl c) (fun t ht => ht)]
      exact joinNl_splitNl c

theorem dropWhile_ws_append (y t : List Char) :
    (y ++ t).dropWhile isWS
      = if (y.dropWhile isWS).isEmpty then t.dropWhile isWS
        else y.dropWhile isWS ++ t := by
  induction y with
  | nil => simp
  | cons c cs ih =>
    by_cases hc : isWS c = true
    · rw [List.cons_append, dropWhile_cons_true _ hc, dropWhile_cons_true _ hc, ih]
    · have hc' : isWS c = false := by simpa using hc
      rw [List.cons_append, dropWhile_cons_false _ hc', dropWhile_cons_false _ hc']
      simp

/-- Trimming is blind to a trailing carriage return, hence the parser
treats a line and its CR-stripped version identically. -/
theorem trimSpace_dropCR (l : String) : trimSpace (dropCR l) = trimSpace l := by
  unfold dropCR
  by_cases hb : sEndsWith l "\r" = true
  · rw [if_pos hb]
    rcases endsWith_cr_data l hb with ⟨y, hy⟩
    have h1 : (sDropRight l 1).data = y := by
      unfold sDropRight
      rw [hy]
      simp
    apply eq_of_data_eq
    show (((sDropRight l 1).data.dropWhile isWS).reverse.dropWhile isWS).reverse
       = ((l.data.dropWhile isWS).reverse.dropWhile isWS).reverse
    rw [h1, hy, dropWhile_ws_append y ['\r']]
    by_cases he : (y.dropWhile isWS).isEmpty
    · rw [if_pos he]
      have hy0 : y.dropWhile isWS = [] := by
        simpa [List.isEmpty_iff] using he
      rw [hy0]
      decide
    · rw [if_neg he]
      rw [show (y.dropWhile isWS ++ ['\r']).reverse
            = '\r' :: (y.dropWhile isWS).reverse from by simp]
      rw [dropWhile_cons_true _ (by decide : isWS '\r' = true)]
  · rw [if_neg (by simpa using hb)]

theorem parseLine_dropCR (home : String) (A : List Mapping × Option String)
    (l : String) : parseLine home A (dropCR l) = parseLine home A l := by
  unfold parseLine
  rw [trimSpace_dropCR]

theorem parse_foldl_dropCR (home : String) (L : List String)
    (A : List Mapping × Option String) :
    (L.map dropCR).foldl (parseLine home) A = L.foldl (parseLine home) A := by
  induction L generalizing A with
  | nil => rfl
  | cons l L ih =>
    rw [List.map_cons, List.foldl_cons, List.foldl_cons, parseLine_dropCR, ih]

theorem takeWhile_append_stop (p : Char → Bool) (A : List Char) (x : Char)
    (B : List Char) (hA : ∀ c ∈ A, p c = true) (hx : p x = false) :
    (A ++ x :: B).takeWhile p = A := by
  induction A with
  | nil => simp [List.takeWhile_cons, hx]
  | cons a as ih =>
    rw [List.cons_append, List.takeWhile_cons, hA a (List.mem_cons_self a as)]
    rw [ih (fun c hc => hA c (List.mem_cons_of_mem a hc))]
    simp

theorem filepathBase_fragment (home name : String) (hn : '/' ∉ name.data) :
    filepathBase (home ++ "/.gitconfig-" ++ name) = ".gitconfig-" ++ name := by
  have hdata : (home ++ "/.gitconfig-" ++ name).data
      = home.data ++ '/' :: (".gitconfig-".data ++ name.data) := by
    rw [data_append, data_append]
    rw [show ("/.gitconfig-" : String).data = '/' :: (".gitconfig-" : String).data
      from by decide]
    simp
  have hrev : (home ++ "/.gitconfig-" ++ name).data.reverse
      = (name.data.reverse ++ (".gitconfig-" : String).data.reverse)
        ++ '/' :: home.data.reverse := by
    rw [hdata]
    simp
  have hpre : ∀ c ∈ (".gitconfig-" : String).data.reverse, (!(c == '/')) = true := by
    decide
  have hAne : ∀ c ∈ name.data.reverse ++ (".gitconfig-" : String).data.reverse,
      (!(c == '/')) = true := by
    intro c hc
    rcases List.mem_append.mp hc with h | h
    · have hmem : c ∈ name.data := List.mem_reverse.mp h
      simp only [Bool.not_eq_true']
      rw [beq_eq_false_iff_ne]
      intro he
      exact hn (he ▸ hmem)
    · exact hpre c h
  have hne : (home ++ "/.gitconfig-" ++ name) ≠ "" := by
    intro he
    have := congrArg String.data he
    rw [hdata] at this
    simp at this
  unfold filepathBase
  rw [if_neg hne]
  have hshape : ∃ c r, (name.data.reverse ++ (".gitconfig-" : String).data.reverse)
      = c :: r ∧ (c == '/') = false := by
    rcases hnr : name.data.reverse with _ | ⟨c, r⟩
    · exact ⟨'-', ("gifnoctig." : String).data, by decide, by decide⟩
    · refine ⟨c, r ++ (".gitconfig-" : String).data.reverse, by simp, ?_⟩
      have hb : (!(c == '/')) = true := hAne c (by rw [hnr]; simp)
      simpa using hb
  rcases hshape with ⟨c, r, hcr, hcf⟩
  have hdw : (home ++ "/.gitconfig-" ++ name).data.reverse.dropWhile (fun c => c == '/')
      = (name.data.reverse ++ (".gitconfig-" : String).data.reverse)
        ++ '/' :: home.data.reverse := by
    rw [hrev, hcr, List.cons_append]
    exact dropWhile_cons_false _ hcf
  rw [hdw]
  rw [if_neg (by rw [hcr]; simp)]
  rw [takeWhile_append_stop (fun c => !(c == '/')) _ '/' _ hAne (by decide)]
  apply eq_of_data_eq
  rw [data_append]
  simp

theorem extractProfileName_fragment (home name : String) (hn : '/' ∉ name.data) :
    extractProfileName (home ++ "/.gitconfig-" ++ name) = name := by
  have hpre : sStartsWith (".gitconfig-" ++ name) ".gitconfig-" = true :=
    sStartsWith_of_data _ _ name.data (data_append _ _)
  unfold extractProfileName
  rw [filepathBase_fragment home name hn]
  simp only [hpre, if_true]
  unfold sDrop
  rw [data_append]
  rw [show (11 : Nat) = (".gitconfig-" : String).data.length from by decide,
    List.drop_left, mk_data]

theorem string_append_assoc (a b c : String) : a ++ b ++ c = a ++ (b ++ c) := by
  apply eq_of_data_eq
  rw [data_append, data_append, data_append, data_append, List.append_assoc]

theorem tildeShorten_fragment (home name : String) :
    tildeShorten home (home ++ "/.gitconfig-" ++ name) = "~/.gitconfig-" ++ name := by
  have hassoc : home ++ "/.gitconfig-" ++ name = home ++ ("/.gitconfig-" ++ name) :=
    string_append_assoc home "/.gitconfig-" name
  have hpre : sStartsWith (home ++ "/.gitconfig-" ++ name) home = true := by
    apply sStartsWith_of_data _ _ (("/.gitconfig-" ++ name).data)
    rw [hassoc, data_append]
  unfold tildeShorten
  rw [hpre, if_pos rfl]
  apply eq_of_data_eq
  rw [data_append]
  rw [show (sDrop (home ++ "/.gitconfig-" ++ name) home.data.length).data
      = ("/.gitconfig-" ++ name).data from by
    show (home ++ "/.gitconfig-" ++ name).data.drop home.data.length = _
    rw [hassoc, data_append, List.drop_left]]
  rw [show ("~/.gitconfig-" ++ name).data
      = ("~" : String).data ++ ("/.gitconfig-" ++ name).data from by
    rw [show ("~/.gitconfig-" ++ name) = "~" ++ ("/.gitconfig-" ++ name) from by
      rw [← string_append_assoc]; rfl]
    rw [data_append]]

theorem headerMatchesDir_self (dir : String) (hd : normTS dir = dir)
    (hdne : dir ≠ "") : headerMatchesDir dir (includeIfHeader dir) = true := by
  unfold headerMatchesDir
  rw [matchIncludeIf_header dir hdne]
  show (normTS dir == dir) = true
  rw [hd]
  simp

/-- The character shape of the tilde-shortened fragment path. -/
theorem tilde_value_head (name : String) :
    ("~/.gitconfig-" ++ name).data
      = '~' :: (("/.gitconfig-" : String).data ++ name.data) := by
  rw [data_append]
  rw [show ("~/.gitconfig-" : String).data
      = '~' :: ("/.gitconfig-" : String).data from by decide]
  simp

theorem tilde_value_last (name : String) (hsafe : fsSafeName name = true) :
    ∃ cl rl, ("~/.gitconfig-" ++ name).data.reverse = cl :: rl ∧ isWS cl = false := by
  rcases hnr : name.data.reverse with _ | ⟨c, r⟩
  · refine ⟨'-', ("~/.gitconfig" : String).data.reverse, ?_, by decide⟩
    rw [data_append]
    rw [List.reverse_append, hnr]
    rw [show ("~/.gitconfig-" : String).data.reverse
        = '-' :: ("~/.gitconfig" : String).data.reverse from by decide]
    rfl
  · refine ⟨c, r ++ ("~/.gitconfig-" : String).data.reverse, ?_, ?_⟩
    · rw [data_append, List.reverse_append, hnr]
      rfl
    · have hmem : c ∈ name.data := List.mem_reverse.mp (by rw [hnr]; simp)
      have hall := List.all_eq_true.mp hsafe c hmem
      unfold fsSafeChar at hall
      have h2 : (!(isWS c)) = true := (Bool.and_eq_true _ _ |>.mp hall).2
      simpa using h2

theorem matchIncludeIf_pathline (v : String) :
    matchIncludeIf ("path = " ++ v) = none := by
  apply matchIncludeIf_eq_none_of_startsWith
  have hdata : ("path = " ++ v).data = 'p' :: (("ath = " : String).data ++ v.data) := by
    rw [data_append,
      show ("path = " : String).data = 'p' :: ("ath = " : String).data from by decide]
    simp
  rw [dropWS_cons _ 'p' _ hdata (by decide)]
  unfold sStartsWith
  rw [hdata]
  rw [show ("[includeIf" : String).data = '[' :: ("includeIf" : String).data from by decide]
  exact isPrefixOf_cons_false '[' 'p' _ _ (by decide)

/-- Parsing the three lines appended by the editor from any scan state
emits exactly the expected mapping and ends outside a block. -/
theorem parse_block_steps (home dir name : String) (ms : List Mapping)
    (st : Option String) (hd : normTS dir = dir) (hdne : dir ≠ "")
    (hsafe : fsSafeName name = true) :
    List.foldl (parseLine home) (ms, st)
        ["", includeIfHeader dir, pathAssignLine ("~/.gitconfig-" ++ name)]
      = (ms ++ [⟨dir, name, home ++ "/.gitconfig-" ++ name⟩], none) := by
  have hn : '/' ∉ name.data := by
    intro hmem
    have hall := List.all_eq_true.mp hsafe '/' hmem
    unfold fsSafeChar at hall
    have h1 : (!('/' == '/')) = true := (Bool.and_eq_true _ _ |>.mp hall).1
    simp at h1
  rcases tilde_value_last name hsafe with ⟨cl, rl, hlast, hclws⟩
  have hstep1 : parseLine home (ms, st) "" = (ms, st) := parseLine_empty home (ms, st)
  have hstep2 : parseLine home (ms, st) (includeIfHeader dir) = (ms, some dir) := by
    simp only [parseLine, trimSpace_header dir, matchIncludeIf_header dir hdne]
    show (ms, some (normTS dir)) = (ms, some dir)
    rw [hd]
  have hv : ("~/.gitconfig-" ++ name).data
      = '~' :: (("/.gitconfig-" : String).data ++ name.data) := tilde_value_head name
  have htrimpath : trimSpace (pathAssignLine ("~/.gitconfig-" ++ name))
      = "path = " ++ ("~/.gitconfig-" ++ name) :=
    trimSpace_pathAssign _ '~' cl _ rl hv (by decide) hlast hclws
  have hmatchpath : matchPathLine ("path = " ++ ("~/.gitconfig-" ++ name))
      = some ("~/.gitconfig-" ++ name) :=
    matchPathLine_eval _ '~' _ hv (by decide)
  have htrimv : trimSpace ("~/.gitconfig-" ++ name) = "~/.gitconfig-" ++ name :=
    trimSpace_of_ends _ '~' cl _ rl hv hlast (by decide) hclws
  have htilde : sStartsWith ("~/.gitconfig-" ++ name) "~" = true := by
    apply sStartsWith_of_data _ _ (("/.gitconfig-" : String).data ++ name.data)
    rw [hv]
    rfl
  have hdrop1 : sDrop ("~/.gitconfig-" ++ name) 1 = "/.gitconfig-" ++ name := by
    apply eq_of_data_eq
    show ("~/.gitconfig-" ++ name).data.drop 1 = _
    rw [hv, data_append]
    rfl
  have hcfg : home ++ sDrop ("~/.gitconfig-" ++ name) 1
      = home ++ "/.gitconfig-" ++ name := by
    rw [hdrop1, ← string_append_assoc]
  have hextract : extractProfileName (home ++ sDrop ("~/.gitconfig-" ++ name) 1)
      = name := by
    rw [hcfg]
    exact extractProfileName_fragment home name hn
  have hstep3 : parseLine home (ms, some dir)
      (pathAssignLine ("~/.gitconfig-" ++ name))
      = (ms ++ [⟨dir, name, home ++ "/.gitconfig-" ++ name⟩], none) := by
    simp only [parseLine, htrimpath, matchIncludeIf_pathline, hmatchpath, htrimv,
      htilde, if_true, hextract, hcfg]
    rw [extractProfileName_fragment home name hn]
  rw [List.foldl_cons, hstep1, List.foldl_cons, hstep2, List.foldl_cons, hstep3]
  rfl

theorem header_no_nl (dir : String) (hdnl : '\n' ∉ dir.data) :
    '\n' ∉ (includeIfHeader dir).data := by
  intro hmem
  rw [show (includeIfHeader dir).data
      = ("[includeIf \"gitdir/i:" : String).data ++ dir.data ++ ("\"]" : String).data from by
    show ((("[includeIf \"gitdir/i:" ++ dir) ++ "\"]")).data = _
    rw [data_append, data_append]] at hmem
  rcases List.mem_append.mp hmem with h | h
  · rcases List.mem_append.mp h with h1 | h1
    · revert h1
      decide
    · exact hdnl h1
  · revert h
    decide

theorem pathAssign_data (v : String) :
    (pathAssignLine v).data = ("    path = " : String).data ++ v.data :=
  data_append _ _

theorem pathAssign_no_nl (v : String) (hv : '\n' ∉ v.data) :
    '\n' ∉ (pathAssignLine v).data := by
  intro hmem
  rw [pathAssign_data] at hmem
  rcases List.mem_append.mp hmem with h | h
  · revert h
    decide
  · exact hv h

theorem tilde_no_nl (name : String) (hsafe : fsSafeName name = true) :
    '\n' ∉ ("~/.gitconfig-" ++ name).data := by
  intro hmem
  rw [data_append] at hmem
  rcases List.mem_append.mp hmem with h | h
  · revert h
    decide
  · have hall := List.all_eq_true.mp hsafe '\n' h
    unfold fsSafeChar at hall
    have h2 : (!(isWS '\n')) = true := (Bool.and_eq_true _ _ |>.mp hall).2
    simp at h2
    revert h2
    decide

theorem pathAssign_ne_empty (v : String) : pathAssignLine v ≠ "" := by
  intro he
  have := congrArg String.data he
  rw [pathAssign_data] at this
  rw [show ("    path = " : String).data = ' ' :: ("   path = " : String).data from by
    decide] at this
  simp at this

theorem header_not_cr_end (dir : String) :
    sEndsWith (includeIfHeader dir) "\r" = false := by
  apply sEndsWith_false_of_last _ ']'
    ('"' :: (dir.data.reverse ++ ("[includeIf \"gitdir/i:" : String).data.reverse))
  · show ((("[includeIf \"gitdir/i:" ++ dir) ++ "\"]")).data.reverse = _
    rw [data_append, data_append]
    rw [show ("\"]" : String).data = ['"', ']'] from by decide]
    simp
  · decide

theorem pathAssign_tilde_not_cr_end (name : String) (hsafe : fsSafeName name = true) :
    sEndsWith (pathAssignLine ("~/.gitconfig-" ++ name)) "\r" = false := by
  rcases tilde_value_last name hsafe with ⟨cl, rl, hlast, hclws⟩
  apply sEndsWith_false_of_last _ cl
    (rl ++ ("    path = " : String).data.reverse)
  · rw [pathAssign_data, List.reverse_append, hlast]
    rfl
  · have : ¬(cl = '\r') := by
      intro he
      rw [he] at hclws
      revert hclws
      decide
    exact beq_eq_false_iff_ne.mpr this

/-- `addIncludeIfBlock` appends a fresh block when no header for the
directory is present. -/
theorem addIncludeIfBlock_append (home dir cpRaw c : String)
    (hnohdr : ∀ l ∈ scanLines c, headerMatchesDir dir l = false) :
    addIncludeIfBlock home dir cpRaw (some c)
      = joinNl (scanLines c ++ ["", includeIfHeader dir,
          pathAssignLine (tildeShorten home cpRaw)]) := by
  simp only [addIncludeIfBlock,
    updateInPlace_eq_none dir (tildeShorten home cpRaw) (scanLines c) hnohdr]

theorem addIncludeIfBlock_none (home dir cpRaw : String) :
    addIncludeIfBlock home dir cpRaw none
      = joinNl ["", includeIfHeader dir,
          pathAssignLine (tildeShorten home cpRaw)] := rfl

/-- Parsing a file made of arbitrary newline-free lines followed by the
freshly appended block yields the old parse plus exactly the new mapping. -/
theorem parse_of_append_block (home dir name : String) (L : List String)
    (hd : normTS dir = dir) (hdne : dir ≠ "") (hdnl : '\n' ∉ dir.data)
    (hsafe : fsSafeName name = true) (hLnl : ∀ l ∈ L, '\n' ∉ l.data) :
    parseMappings home (some (joinNl (L ++ ["", includeIfHeader dir,
        pathAssignLine ("~/.gitconfig-" ++ name)])))
      = (L.foldl (parseLine home) ([], none)).1
        ++ [⟨dir, name, home ++ "/.gitconfig-" ++ name⟩] := by
  have hne : L ++ ["", includeIfHeader dir,
      pathAssignLine ("~/.gitconfig-" ++ name)] ≠ [] := by simp
  have hnl : ∀ l ∈ L ++ ["", includeIfHeader dir,
      pathAssignLine ("~/.gitconfig-" ++ name)], '\n' ∉ l.data := by
    intro l hl
    rcases List.mem_append.mp hl with h | h
    · exact hLnl l h
    · simp only [List.mem_cons, List.not_mem_nil, or_false] at h
      rcases h with h | h | h
      · rw [h]; decide
      · rw [h]; exact header_no_nl dir hdnl
      · rw [h]; exact pathAssign_no_nl _ (tilde_no_nl name hsafe)
  have hlast : (L ++ ["", includeIfHeader dir,
      pathAssignLine ("~/.gitconfig-" ++ name)]).getLast? ≠ some "" := by
    rw [show L ++ ["", includeIfHeader dir, pathAssignLine ("~/.gitconfig-" ++ name)]
        = (L ++ ["", includeIfHeader dir])
          ++ [pathAssignLine ("~/.gitconfig-" ++ name)] from by simp]
    rw [List.getLast?_concat _]
    intro h
    exact pathAssign_ne_empty ("~/.gitconfig-" ++ name) (Option.some.inj h)
  have hscan := scanLines_joinNl_map _ hne hnl hlast
  rw [show parseMappings home (some (joinNl (L ++ ["", includeIfHeader dir,
      pathAssignLine ("~/.gitconfig-" ++ name)])))
    = ((scanLines (joinNl (L ++ ["", includeIfHeader dir,
        pathAssignLine ("~/.gitconfig-" ++ name)]))).foldl
        (parseLine home) ([], none)).1 from rfl]
  rw [hscan, parse_foldl_dropCR, List.foldl_append]
  rw [show L.foldl (parseLine home) ([], none)
      = ((L.foldl (parseLine home) ([], none)).1,
         (L.foldl (parseLine home) ([], none)).2) from rfl]
  rw [parse_block_steps home dir name _ _ hd hdne hsafe]

/-- C3: Round trip of map then parse: for every normalised directory not
yet mapped (and appearing in no includeIf header of the shared file) and
every profile with a filesystem-safe name, a successful map followed by
parsing the shared file yields exactly one mapping for the directory, and
it carries the profile's name and expanded fragment path. -/
theorem map_then_parse_roundtrip (home dir : String) (P : Profile) (fs : FS)
    (hd : normTS dir = dir) (hdne : dir ≠ "") (hdnl : '\n' ∉ dir.data)
    (hsafe : fsSafeName P.name = true)
    (hnm : ∀ m ∈ parseMappings home fs.gitconfig, m.directory ≠ dir)
    (hnohdr : ∀ c, fs.gitconfig = some c →
      ∀ l ∈ scanLines c, headerMatchesDir dir l = false) :
    (mapProfileToDirectory home P dir fs).2 = none ∧
    (parseMappings home (mapProfileToDirectory home P dir fs).1.gitconfig).filter
        (fun m => m.directory == dir)
      = [⟨dir, P.name, home ++ "/.gitconfig-" ++ P.name⟩] := by
  have hfind0 : (parseMappings home fs.gitconfig).find?
      (fun m => m.directory == dir) = none := by
    refine List.find?_eq_none.mpr (fun m hm => ?_)
    simp only [Bool.not_eq_true, beq_eq_false_iff_ne]
    exact hnm m hm
  have hfind : (parseMappings home fs.gitconfig).find?
      (fun m => m.directory == normTS dir) = none := by
    rw [hd]
    exact hfind0
  have hmap2 : (mapProfileToDirectory home P dir fs).2 = none := by
    simp only [mapProfileToDirectory, hfind]
  have hmapg : (mapProfileToDirectory home P dir fs).1.gitconfig
      = some (addIncludeIfBlock home dir (fragmentPathFor home P.name)
          fs.gitconfig) := by
    simp only [mapProfileToDirectory, hd, hfind0]
  refine ⟨hmap2, ?_⟩
  rw [hmapg]
  have htilde : tildeShorten home (fragmentPathFor home P.name)
      = "~/.gitconfig-" ++ P.name := tildeShorten_fragment home P.name
  have hfilter_new : List.filter (fun m => m.directory == dir)
      [(⟨dir, P.name, home ++ "/.gitconfig-" ++ P.name⟩ : Mapping)]
      = [⟨dir, P.name, home ++ "/.gitconfig-" ++ P.name⟩] := by
    simp [List.filter]
  rcases hg : fs.gitconfig with _ | c
  · rw [addIncludeIfBlock_none, htilde]
    rw [show (["", includeIfHeader dir,
        pathAssignLine ("~/.gitconfig-" ++ P.name)] : List String)
      = [] ++ ["", includeIfHeader dir,
          pathAssignLine ("~/.gitconfig-" ++ P.name)] from rfl]
    rw [parse_of_append_block home dir P.name [] hd hdne hdnl hsafe
      (fun l hl => absurd hl (List.not_mem_nil l))]
    simp [hfilter_new]
  · rw [addIncludeIfBlock_append home dir _ c (hnohdr c hg), htilde]
    rw [parse_of_append_block home dir P.name (scanLines c) hd hdne hdnl hsafe
      (fun l hl => scanLines_no_nl c l hl)]
    rw [List.filter_append]
    rw [show ((scanLines c).foldl (parseLine home) ([], none)).1
        = parseMappings home (some c) from rfl]
    rw [List.filter_eq_nil_iff.mpr (fun m hm => by
      simp only [Bool.not_eq_true, beq_eq_false_iff_ne]
      exact hnm m (by rw [hg]; exact hm))]
    simp [hfilter_new]

theorem isPrefixOf_single (a : Char) (l : List Char) (h : [a].isPrefixOf l = true) :
    ∃ r, l = a :: r := by
  cases l with
  | nil => simp [List.isPrefixOf] at h
  | cons b bs =>
    have hab : a = b := by
      have : (a == b) = true := by
        simpa [List.isPrefixOf, Bool.and_eq_true] using h
      exact eq_of_beq this
    exact ⟨bs, by rw [hab]⟩

theorem matchPathLine_of_lbracket (s : String) (h : sStartsWith s "[" = true) :
    matchPathLine s = none := by
  unfold sStartsWith at h
  rw [show ("[" : String).data = ['['] from by decide] at h
  rcases isPrefixOf_single '[' s.data h with ⟨r, hr⟩
  have h1 : dropWS s = s := dropWS_cons s '[' r hr (by decide)
  have h2 : sStartsWith s "path" = false := by
    unfold sStartsWith
    rw [hr, show ("path" : String).data = 'p' :: ("ath" : String).data from by decide]
    exact isPrefixOf_cons_false 'p' '[' _ _ (by decide)
  simp [matchPathLine, h1, h2]

theorem scanLines_ne_nil (c : String) (hc : c ≠ "") : scanLines c ≠ [] := by
  unfold scanLines
  rw [if_neg hc]
  intro hmap
  have hdle : dropLastEmpty (splitNl c) = [] := by
    rcases hv : dropLastEmpty (splitNl c) with _ | ⟨x, xs⟩
    · rfl
    · rw [hv] at hmap
      simp at hmap
  unfold dropLastEmpty at hdle
  by_cases hb : (splitNl c).getLast? = some ""
  · rw [if_pos hb] at hdle
    have hlen : (splitNl c).length ≤ 1 := by
      have := congrArg List.length hdle
      simp at this
      omega
    rcases hv : splitNl c with _ | ⟨x, xs⟩
    · exact splitNlAux_ne_nil c.data [] hv
    · rw [hv] at hlen hb
      rcases xs with _ | ⟨y, ys⟩
      · have hx : x = "" := by simpa using hb
        have : joinNl (splitNl c) = joinNl [""] := by rw [hv, hx]
        rw [joinNl_splitNl] at this
        exact hc (by simpa using this)
      · simp at hlen
  · rw [if_neg hb] at hdle
    exact splitNlAux_ne_nil c.data [] hdle

theorem scanLines_cr_end_false (c : String) (hcr : '\r' ∉ c.data) :
    ∀ l ∈ scanLines c, sEndsWith l "\r" = false := by
  intro l hl
  rcases hb : sEndsWith l "\r" with _ | _
  · rfl
  · rcases endsWith_cr_data l hb with ⟨y, hy⟩
    have : '\r' ∈ l.data := by rw [hy]; simp
    exact absurd (scanLines_subset c l hl '\r' this) hcr

theorem joinNl_append (xs ys : List String) (hxs : xs ≠ []) (hys : ys ≠ []) :
    joinNl (xs ++ ys) = joinNl xs ++ "\n" ++ joinNl ys := by
  induction xs with
  | nil => exact absurd rfl hxs
  | cons x xs ih =>
    cases xs with
    | nil =>
      rw [show ([x] : List String) ++ ys = x :: ys from rfl]
      rw [joinNl_cons x ys hys]
      rfl
    | cons x2 xs' =>
      rw [show (x :: x2 :: xs') ++ ys = x :: ((x2 :: xs') ++ ys) from rfl]
      rw [joinNl_cons x _ (by simp)]
      rw [ih (by simp)]
      rw [joinNl_cons x (x2 :: xs') (by simp)]
      apply eq_of_data_eq
      simp [data_append]

theorem map_then_parse_roundtrip_witness :
    (mapProfileToDirectory "/home/u" ⟨"work", "w@example.com", "", "", ""⟩ "/a/b/"
      ⟨some "[user]\n    name = T", []⟩).2 = none ∧
    (parseMappings "/home/u" (mapProfileToDirectory "/home/u"
        ⟨"work", "w@example.com", "", "", ""⟩ "/a/b/"
        ⟨some "[user]\n    name = T", []⟩).1.gitconfig).filter
        (fun m => m.directory == "/a/b/")
      = [⟨"/a/b/", "work", "/home/u/.gitconfig-work"⟩] :=
  map_then_parse_roundtrip "/home/u" "/a/b/" ⟨"work", "w@example.com", "", "", ""⟩
    ⟨some "[user]\n    name = T", []⟩ (by decide) (by decide) (by decide) (by decide)
    (by decide)
    (by
      intro c hc
      rw [show c = "[user]\n    name = T" from (Option.some.inj hc).symm]
      decide)

/-- C10: extractProfileName round-trips the fragment naming convention and
is total: the fragment path built for a separator-free profile name maps
back to that name, and a path whose base name lacks the fixed prefix
yields the empty string rather than an error. -/
theorem extractProfileName_roundtrip (home N p : String) (hN : '/' ∉ N.data)
    (hp : sStartsWith (filepathBase p) ".gitconfig-" = false) :
    extractProfileName (fragmentPathFor home N) = N ∧ extractProfileName p = "" := by
  constructor
  · exact extractProfileName_fragment home N hN
  · unfold extractProfileName
    simp [hp]

theorem extractProfileName_roundtrip_witness :
    extractProfileName (fragmentPathFor "/home/u" "work") = "work" ∧
    extractProfileName "/home/u/.gitconfig" = "" :=
  extractProfileName_roundtrip "/home/u" "work" "/home/u/.gitconfig"
    (by decide) (by decide)

/-- C5: directory lookup resolution order: exact match on the normalised
query wins, else the first mapping in file order whose directory is a
string prefix of the query, else no mapping, which is a non-error
outcome. -/
theorem lookup_resolution_order (home : String) (g : Option String) (dir : String) :
    (∀ m ∈ parseMappings home g, m.directory = normTS dir →
      ∃ m', getMappingForDirectory home g dir = some m' ∧
        m' ∈ parseMappings home g ∧ m'.directory = normTS dir) ∧
    ((∀ m ∈ parseMappings home g, m.directory ≠ normTS dir) →
      getMappingForDirectory home g dir
        = (parseMappings home g).find?
            (fun m => sStartsWith (normTS dir) m.directory)) ∧
    ((∀ m ∈ parseMappings home g, m.directory ≠ normTS dir ∧
        sStartsWith (normTS dir) m.directory = false) →
      getMappingForDirectory home g dir = none) := by
  refine ⟨?_, ?_, ?_⟩
  · intro m hm hdir
    rcases hfind : (parseMappings home g).find?
        (fun m' => m'.directory == normTS dir) with _ | m'
    · have := List.find?_eq_none.mp hfind m hm
      rw [hdir] at this
      simp at this
    · refine ⟨m', ?_, List.mem_of_find?_eq_some hfind, ?_⟩
      · unfold getMappingForDirectory lookupMapping
        rw [hfind]
      · have := List.find?_some hfind
        exact beq_iff_eq.mp this
  · intro h
    have hfind : (parseMappings home g).find?
        (fun m' => m'.directory == normTS dir) = none := by
      refine List.find?_eq_none.mpr (fun m hm => ?_)
      simp only [Bool.not_eq_true, beq_eq_false_iff_ne]
      exact h m hm
    unfold getMappingForDirectory lookupMapping
    rw [hfind]
  · intro h
    have hfind : (parseMappings home g).find?
        (fun m' => m'.directory == normTS dir) = none := by
      refine List.find?_eq_none.mpr (fun m hm => ?_)
      simp only [Bool.not_eq_true, beq_eq_false_iff_ne]
      exact (h m hm).1
    have hfind2 : (parseMappings home g).find?
        (fun m' => sStartsWith (normTS dir) m'.directory) = none := by
      refine List.find?_eq_none.mpr (fun m hm => ?_)
      simp only [Bool.not_eq_true]
      exact (h m hm).2
    unfold getMappingForDirectory lookupMapping
    rw [hfind, hfind2]

theorem lookup_resolution_order_witness :
    getMappingForDirectory "/h"
        (some "[includeIf \"gitdir/i:/a/b/\"]\n    path = ~/.gitconfig-work")
        "/a/b/c"
      = some ⟨"/a/b/", "work", "/h/.gitconfig-work"⟩ ∧
    getMappingForDirectory "/h"
        (some "[includeIf \"gitdir/i:/a/b/\"]\n    path = ~/.gitconfig-work")
        "/a/other"
      = none := by
  constructor
  · have h := (lookup_resolution_order "/h"
      (some "[includeIf \"gitdir/i:/a/b/\"]\n    path = ~/.gitconfig-work")
      "/a/b/c").2.1 (by decide)
    rw [h]
    decide
  · exact (lookup_resolution_order "/h"
      (some "[includeIf \"gitdir/i:/a/b/\"]\n    path = ~/.gitconfig-work")
      "/a/other").2.2 (by decide)

/-- C8: the parser is total on malformed input: a missing shared file
yields the empty list with no error; a header line seen while a path line
is still awaited silently overwrites the pending directory, emitting no
mapping for the first header; and any other line starting with `[` while a
path is awaited discards the pending directory, emitting no mapping and no
error. -/
theorem parser_total_on_malformed (home : String) :
    parseMappings home none = [] ∧
    (∀ (acc : List Mapping) (st : Option String) (l d0 : String),
      matchIncludeIf (trimSpace l) = some d0 →
      parseLine home (acc, st) l = (acc, some (normTS d0))) ∧
    (∀ (acc : List Mapping) (cd l : String),
      matchIncludeIf (trimSpace l) = none →
      sStartsWith (trimSpace l) "[" = true →
      parseLine home (acc, some cd) l = (acc, none)) := by
  refine ⟨rfl, ?_, ?_⟩
  · intro acc st l d0 h
    simp [parseLine, h]
    rfl
  · intro acc cd l hmi hb
    simp [parseLine, hmi, matchPathLine_of_lbracket _ hb, hb]

theorem parser_total_on_malformed_witness :
    parseMappings "/h" none = [] ∧
    parseLine "/h" ([], some "/old/") "[includeIf \"gitdir/i:/x/\"]"
      = ([], some "/x/") ∧
    parseLine "/h" ([], some "/old/") "[user]" = ([], none) := by
  refine ⟨(parser_total_on_malformed "/h").1, ?_, ?_⟩
  · have h := (parser_total_on_malformed "/h").2.1 [] (some "/old/")
      "[includeIf \"gitdir/i:/x/\"]" "/x/" (by decide)
    rw [h]
    decide
  · exact (parser_total_on_malformed "/h").2.2 [] "/old/" "[user]"
      (by decide) (by decide)

/-- C2 (code bug): the fragment writer emits the profile name, not the
author-name override, as the identity section's name value; the override
accessor `getAuthorName` would have returned the override. -/
theorem generateProfileConfig_ignores_author_override :
    generateProfileConfigContent ⟨"work", "w@example.com", "John Doe", "", ""⟩
      = "[user]\n    name = work\n    email = w@example.com\n" ∧
    Profile.getAuthorName ⟨"work", "w@example.com", "John Doe", "", ""⟩
      = "John Doe" ∧
    generateProfileConfigContent ⟨"work", "w@example.com", "John Doe", "", ""⟩
      ≠ "[user]\n    name = John Doe\n    email = w@example.com\n" := by
  decide

/-- C1 (counterexample): remapping the same profile to the same directory
does not succeed — the code rejects any remap of a mapped directory, even
to the profile it is already mapped to. -/
theorem map_same_profile_rejected :
    (mapProfileToDirectory "/h" ⟨"work", "w@e.com", "", "", ""⟩ "/a/"
      ⟨some "[includeIf \"gitdir/i:/a/\"]\n    path = ~/.gitconfig-work", []⟩).2
      = some "directory '/a/' is already mapped to profile 'work'" := by
  decide

/-- C1 (amended): map raises the already-mapped error exactly when the
normalised target directory is already mapped to any profile — including
the one being mapped — and on that error the state is untouched, so the
block count for the directory stays as it was (one). -/
theorem map_already_mapped_iff (home dir : String) (P : Profile) (fs : FS) :
    ((mapProfileToDirectory home P dir fs).2 ≠ none ↔
      ∃ m ∈ parseMappings home fs.gitconfig, m.directory = normTS dir) ∧
    (∀ m, (parseMappings home fs.gitconfig).find?
        (fun m' => m'.directory == normTS dir) = some m →
      mapProfileToDirectory home P dir fs
        = (fs, some ("directory '" ++ dir ++ "' is already mapped to profile '"
            ++ m.profile ++ "'"))) := by
  rcases hfind : (parseMappings home fs.gitconfig).find?
      (fun m' => m'.directory == normTS dir) with _ | m0
  · constructor
    · constructor
      · intro h
        exact absurd (by simp [mapProfileToDirectory, hfind]) h
      · rintro ⟨m, hm, hdir⟩
        have := List.find?_eq_none.mp hfind m hm
        rw [hdir] at this
        simp at this
    · intro m hm
      rw [hfind] at hm
      exact absurd hm (by simp)
  · constructor
    · constructor
      · intro _
        have hp := List.find?_some hfind
        exact ⟨m0, List.mem_of_find?_eq_some hfind, beq_iff_eq.mp hp⟩
      · intro _
        simp [mapProfileToDirectory, hfind]
    · intro m hm
      rw [hfind] at hm
      rw [show m = m0 from (Option.some.inj hm).symm]
      simp [mapProfileToDirectory, hfind]

theorem map_already_mapped_iff_witness :
    mapProfileToDirectory "/h" ⟨"work", "w@e.com", "", "", ""⟩ "/a/"
      ⟨some "[includeIf \"gitdir/i:/a/\"]\n    path = ~/.gitconfig-work", []⟩
      = (⟨some "[includeIf \"gitdir/i:/a/\"]\n    path = ~/.gitconfig-work", []⟩,
         some "directory '/a/' is already mapped to profile 'work'") :=
  (map_already_mapped_iff "/h" "/a/" ⟨"work", "w@e.com", "", "", ""⟩
    ⟨some "[includeIf \"gitdir/i:/a/\"]\n    path = ~/.gitconfig-work", []⟩).2
    ⟨"/a/", "work", "/h/.gitconfig-work"⟩ (by decide)

/-- C7: when the first mapping for the normalised directory carries
profile P1 and a different profile P2 is mapped onto it, the call fails
with the conflict error naming P1 and returns with the shared file and all
fragment files exactly as they were: the duplicate check runs before any
write. -/
theorem map_conflict_atomic (home dir P1 : String) (P2 : Profile) (fs : FS)
    (m : Mapping)
    (hfind : (parseMappings home fs.gitconfig).find?
      (fun m' => m'.directory == normTS dir) = some m)
    (hprof : m.profile = P1) ( _hne : P1 ≠ P2.name) :
    mapProfileToDirectory home P2 dir fs
      = (fs, some ("directory '" ++ dir ++ "' is already mapped to profile '"
          ++ P1 ++ "'")) := by
  simp [mapProfileToDirectory, hfind, hprof]

theorem map_conflict_atomic_witness :
    (∃ m : Mapping,
      (parseMappings "/h" (some "[includeIf \"gitdir/i:/a/\"]\n    path = ~/.gitconfig-work")).find?
        (fun m' => m'.directory == normTS "/a/") = some m ∧
      m.profile = "work") ∧
    "work" ≠ ("test2" : String) ∧
    mapProfileToDirectory "/h" ⟨"test2", "t2@e.com", "", "", ""⟩ "/a/"
      ⟨some "[includeIf \"gitdir/i:/a/\"]\n    path = ~/.gitconfig-work", []⟩
      = (⟨some "[includeIf \"gitdir/i:/a/\"]\n    path = ~/.gitconfig-work", []⟩,
         some "directory '/a/' is already mapped to profile 'work'") :=
  ⟨⟨⟨"/a/", "work", "/h/.gitconfig-work"⟩, by decide, rfl⟩, by decide,
    map_conflict_atomic "/h" "/a/" "work" ⟨"test2", "t2@e.com", "", "", ""⟩
      ⟨some "[includeIf \"gitdir/i:/a/\"]\n    path = ~/.gitconfig-work", []⟩
      ⟨"/a/", "work", "/h/.gitconfig-work"⟩ (by decide) rfl (by decide)⟩

/-- C6 (counterexample): unmapping when the shared file does not exist is
not a silent no-op — the open fails and the error is surfaced. -/
theorem unmap_missing_file_errors :
    (unmapDirectory "/a/" ⟨none, []⟩).2 = some "failed to open git config" := by
  decide

/-- C6 (amended): for a directory with no matching block, unmap succeeds
when the shared file exists and writes back exactly the lines it read —
byte-identical content except that a terminating newline byte is dropped —
while unmap on a missing shared file fails with the open error. -/
theorem unmap_no_match_noop (dir c : String) (frs : List (String × String))
    (hnom : ∀ l ∈ scanLines c, headerMatchesDir (normTS dir) l = false)
    (hcr : '\r' ∉ c.data) :
    unmapDirectory dir ⟨some c, frs⟩
      = (⟨some (joinNl (scanLines c)), frs⟩, none) ∧
    joinNl (scanLines c)
      = (if sEndsWith c "\n" = true then sDropRight c 1 else c) ∧
    (unmapDirectory dir ⟨none, frs⟩).2 = some "failed to open git config" := by
  refine ⟨?_, joinNl_scanLines c hcr, rfl⟩
  have hrm : removeIncludeIfBlockLines (normTS dir) (scanLines c) = scanLines c := by
    unfold removeIncludeIfBlockLines
    rw [removeAux_no_match (normTS dir) (scanLines c) hnom none []]
    simp
  simp [unmapDirectory, hrm]

theorem unmap_no_match_noop_witness :
    unmapDirectory "/a/" ⟨some "[user]\n    name = T\n", []⟩
      = (⟨some (joinNl (scanLines "[user]\n    name = T\n")), []⟩, none) ∧
    joinNl (scanLines "[user]\n    name = T\n")
      = (if sEndsWith "[user]\n    name = T\n" "\n" = true
         then sDropRight "[user]\n    name = T\n" 1
         else "[user]\n    name = T\n") ∧
    (unmapDirectory "/a/" ⟨none, []⟩).2 = some "failed to open git config" :=
  unmap_no_match_noop "/a/" "[user]\n    name = T\n" [] (by decide) (by decide)

/-- C9: both write paths serialise the scanned line list joined by single
newlines with no added terminating newline: a remove that matches no block
yields the original content minus exactly its final newline byte, and an
upsert that appends a block keeps every original line, re-creating the old
final newline only as the blank separator line before the new block. -/
theorem write_loses_final_newline (home dir cp c : String)
    (frs : List (String × String))
    (hnl : sEndsWith c "\n" = true) (hcr : '\r' ∉ c.data)
    (hd : normTS dir = dir)
    (hnom : ∀ l ∈ scanLines c, headerMatchesDir dir l = false) :
    (unmapDirectory dir ⟨some c, frs⟩).1.gitconfig = some (sDropRight c 1) ∧
    addIncludeIfBlock home dir cp (some c)
      = sDropRight c 1 ++ "\n\n" ++ includeIfHeader dir ++ "\n"
        ++ pathAssignLine (tildeShorten home cp) := by
  have hcne : c ≠ "" := by
    intro he
    rw [he] at hnl
    revert hnl
    decide
  have hjoin : joinNl (scanLines c) = sDropRight c 1 := by
    rw [joinNl_scanLines c hcr, if_pos hnl]
  constructor
  · have hrm : removeIncludeIfBlockLines (normTS dir) (scanLines c)
        = scanLines c := by
      unfold removeIncludeIfBlockLines
      rw [hd, removeAux_no_match dir (scanLines c) hnom none []]
      simp
    simp [unmapDirectory, hrm, hjoin]
  · rw [addIncludeIfBlock_append home dir cp c hnom]
    rw [joinNl_append (scanLines c) _ (scanLines_ne_nil c hcne) (by simp)]
    rw [hjoin]
    rw [show joinNl ["", includeIfHeader dir, pathAssignLine (tildeShorten home cp)]
        = "" ++ "\n" ++ (includeIfHeader dir ++ "\n"
            ++ pathAssignLine (tildeShorten home cp)) from rfl]
    apply eq_of_data_eq
    simp [data_append]

theorem write_loses_final_newline_witness :
    (unmapDirectory "/a/" ⟨some "x\n", []⟩).1.gitconfig
      = some (sDropRight "x\n" 1) ∧
    addIncludeIfBlock "/h" "/a/" "/h/.gitconfig-w" (some "x\n")
      = sDropRight "x\n" 1 ++ "\n\n" ++ includeIfHeader "/a/" ++ "\n"
        ++ pathAssignLine (tildeShorten "/h" "/h/.gitconfig-w") :=
  write_loses_final_newline "/h" "/a/" "/h/.gitconfig-w" "x\n" []
    (by decide) (by decide) (by decide) (by decide)

/-- C4 (counterexample): a pre-existing malformed header for the directory
plus its following line are destroyed by the map/unmap pair even though
the directory was not mapped: the line `keepme` from the original file is
gone afterwards. -/
theorem map_unmap_destroys_orphan_block :
    (∀ m ∈ parseMappings "/h"
        (some "[includeIf \"gitdir/i:/a/\"]\nkeepme"), m.directory ≠ "/a/") ∧
    (mapProfileToDirectory "/h" ⟨"work", "w@e.com", "", "", ""⟩ "/a/"
      ⟨some "[includeIf \"gitdir/i:/a/\"]\nkeepme", []⟩).2 = none ∧
    (unmapDirectory "/a/" (mapProfileToDirectory "/h"
        ⟨"work", "w@e.com", "", "", ""⟩ "/a/"
        ⟨some "[includeIf \"gitdir/i:/a/\"]\nkeepme", []⟩).1).2 = none ∧
    (unmapDirectory "/a/" (mapProfileToDirectory "/h"
        ⟨"work", "w@e.com", "", "", ""⟩ "/a/"
        ⟨some "[includeIf \"gitdir/i:/a/\"]\nkeepme", []⟩).1).1.gitconfig
      = some "" ∧
    "keepme" ∈ scanLines "[includeIf \"gitdir/i:/a/\"]\nkeepme" := by
  decide

/-- C4 (amended): when no line of the shared file is an includeIf header
for the directory (raw or trimmed) — in particular the directory is not
mapped — map then unmap succeed, the resulting file consists of exactly
the original scanned lines (so it is byte-identical to the original except
that a terminating newline byte is lost, map's separator blank line
included), and parsing it yields no mapping for the directory. -/
theorem map_unmap_frame (home dir : String) (P : Profile) (c : String)
    (frs : List (String × String))
    (hd : normTS dir = dir) (hdne : dir ≠ "") (hdnl : '\n' ∉ dir.data)
    (hsafe : fsSafeName P.name = true) (hcr : '\r' ∉ c.data)
    (hnohdr : ∀ l ∈ scanLines c, headerMatchesDir dir l = false ∧
      headerMatchesDir dir (trimSpace l) = false) :
    (mapProfileToDirectory home P dir ⟨some c, frs⟩).2 = none ∧
    (unmapDirectory dir
      (mapProfileToDirectory home P dir ⟨some c, frs⟩).1).2 = none ∧
    (unmapDirectory dir
        (mapProfileToDirectory home P dir ⟨some c, frs⟩).1).1.gitconfig
      = some (joinNl (scanLines c)) ∧
    joinNl (scanLines c)
      = (if sEndsWith c "\n" = true then sDropRight c 1 else c) ∧
    (∀ m ∈ parseMappings home (unmapDirectory dir
        (mapProfileToDirectory home P dir ⟨some c, frs⟩).1).1.gitconfig,
      m.directory ≠ dir) := by
  have hnm : ∀ m ∈ parseMappings home (some c), m.directory ≠ dir :=
    parse_no_dir_of_no_header home c dir (fun l hl => (hnohdr l hl).2)
  have hfind0 : (parseMappings home (some c)).find?
      (fun m => m.directory == dir) = none := by
    refine List.find?_eq_none.mpr (fun m hm => ?_)
    simp only [Bool.not_eq_true, beq_eq_false_iff_ne]
    exact hnm m hm
  have hfind : (parseMappings home ((⟨some c, frs⟩ : FS).gitconfig)).find?
      (fun m => m.directory == normTS dir) = none := by
    rw [hd]
    exact hfind0
  have hmap2 : (mapProfileToDirectory home P dir ⟨some c, frs⟩).2 = none := by
    simp only [mapProfileToDirectory, hfind]
  have hmapg : (mapProfileToDirectory home P dir ⟨some c, frs⟩).1.gitconfig
      = some (addIncludeIfBlock home dir (fragmentPathFor home P.name) (some c)) := by
    simp only [mapProfileToDirectory, hd, hfind0]
  have hblock : addIncludeIfBlock home dir (fragmentPathFor home P.name) (some c)
      = joinNl (scanLines c ++ ["", includeIfHeader dir,
          pathAssignLine ("~/.gitconfig-" ++ P.name)]) := by
    rw [addIncludeIfBlock_append home dir _ c (fun l hl => (hnohdr l hl).1)]
    rw [show tildeShorten home (fragmentPathFor home P.name)
        = "~/.gitconfig-" ++ P.name from tildeShorten_fragment home P.name]
  have hscan : scanLines (joinNl (scanLines c ++ ["", includeIfHeader dir,
      pathAssignLine ("~/.gitconfig-" ++ P.name)]))
      = scanLines c ++ ["", includeIfHeader dir,
          pathAssignLine ("~/.gitconfig-" ++ P.name)] := by
    apply scanLines_joinNl
    · simp
    · intro l hl
      rcases List.mem_append.mp hl with h | h
      · exact scanLines_no_nl c l h
      · simp only [List.mem_cons, List.not_mem_nil, or_false] at h
        rcases h with h | h | h
        · rw [h]; decide
        · rw [h]; exact header_no_nl dir hdnl
        · rw [h]; exact pathAssign_no_nl _ (tilde_no_nl P.name hsafe)
    · rw [show scanLines c ++ ["", includeIfHeader dir,
          pathAssignLine ("~/.gitconfig-" ++ P.name)]
        = (scanLines c ++ ["", includeIfHeader dir])
          ++ [pathAssignLine ("~/.gitconfig-" ++ P.name)] from by simp]
      rw [List.getLast?_concat _]
      intro h
      exact pathAssign_ne_empty ("~/.gitconfig-" ++ P.name) (Option.some.inj h)
    · intro l hl
      rcases List.mem_append.mp hl with h | h
      · exact scanLines_cr_end_false c hcr l h
      · simp only [List.mem_cons, List.not_mem_nil, or_false] at h
        rcases h with h | h | h
        · rw [h]; decide
        · rw [h]; exact header_not_cr_end dir
        · rw [h]; exact pathAssign_tilde_not_cr_end P.name hsafe
  have hrem : removeIncludeIfBlockLines dir (scanLines c
      ++ ["", includeIfHeader dir, pathAssignLine ("~/.gitconfig-" ++ P.name)])
      = scanLines c := by
    unfold removeIncludeIfBlockLines
    rw [removeAux_append_no_match dir (scanLines c)
      (fun l hl => (hnohdr l hl).1) _ none []]
    rw [removeAux_block dir (includeIfHeader dir)
      (pathAssignLine ("~/.gitconfig-" ++ P.name)) _ _
      (headerMatchesDir_self dir hd hdne)]
    simp
  have hunmap : unmapDirectory dir (mapProfileToDirectory home P dir
      ⟨some c, frs⟩).1
      = (⟨some (joinNl (scanLines c)),
          (mapProfileToDirectory home P dir ⟨some c, frs⟩).1.fragments⟩, none) := by
    rcases hfs : (mapProfileToDirectory home P dir ⟨some c, frs⟩).1 with ⟨g, fr⟩
    have hg : g = some (addIncludeIfBlock home dir
        (fragmentPathFor home P.name) (some c)) := by
      rw [← hmapg, hfs]
    rw [hg, hblock]
    simp only [unmapDirectory, hd, hscan, hrem]
  refine ⟨hmap2, ?_, ?_, joinNl_scanLines c hcr, ?_⟩
  · rw [hunmap]
  · rw [hunmap]
  · rw [hunmap]
    show ∀ m ∈ parseMappings home (some (joinNl (scanLines c))), m.directory ≠ dir
    apply parse_no_dir_of_no_header
    intro l hl
    by_cases hls : scanLines c = []
    · rw [hls] at hl
      rw [show joinNl ([] : List String) = "" from rfl] at hl
      rw [show scanLines "" = [] from rfl] at hl
      exact absurd hl (List.not_mem_nil l)
    · have hnlfree : ∀ x ∈ scanLines c, '\n' ∉ x.data :=
        fun x hx => scanLines_no_nl c x hx
      have hsplit : splitNl (joinNl (scanLines c)) = scanLines c :=
        splitNl_joinNl (scanLines c) hls hnlfree
      rw [show scanLines (joinNl (scanLines c))
          = (if joinNl (scanLines c) = "" then []
             else (dropLastEmpty (splitNl (joinNl (scanLines c)))).map dropCR)
        from rfl] at hl
      by_cases hje : joinNl (scanLines c) = ""
      · rw [if_pos hje] at hl
        exact absurd hl (List.not_mem_nil l)
      · rw [if_neg hje] at hl
        rcases List.mem_map.mp hl with ⟨t, ht, hdt⟩
        have htm : t ∈ scanLines c := by
          rw [← hsplit]
          exact mem_dropLastEmpty _ t ht
        rw [← hdt, trimSpace_dropCR]
        exact (hnohdr t htm).2

theorem map_unmap_frame_witness :
    (mapProfileToDirectory "/h" ⟨"work", "w@e.com", "", "", ""⟩ "/a/"
      ⟨some "[user]\n    name = T\n", []⟩).2 = none ∧
    (unmapDirectory "/a/" (mapProfileToDirectory "/h"
        ⟨"work", "w@e.com", "", "", ""⟩ "/a/"
        ⟨some "[user]\n    name = T\n", []⟩).1).2 = none ∧
    (unmapDirectory "/a/" (mapProfileToDirectory "/h"
        ⟨"work", "w@e.com", "", "", ""⟩ "/a/"
        ⟨some "[user]\n    name = T\n", []⟩).1).1.gitconfig
      = some (joinNl (scanLines "[user]\n    name = T\n")) ∧
    joinNl (scanLines "[user]\n    name = T\n")
      = (if sEndsWith "[user]\n    name = T\n" "\n" = true
         then sDropRight "[user]\n    name = T\n" 1
         else "[user]\n    name = T\n") ∧
    (∀ m ∈ parseMappings "/h" (unmapDirectory "/a/" (mapProfileToDirectory "/h"
        ⟨"work", "w@e.com", "", "", ""⟩ "/a/"
        ⟨some "[user]\n    name = T\n", []⟩).1).1.gitconfig,
      m.directory ≠ "/a/") :=
  map_unmap_frame "/h" "/a/" ⟨"work", "w@e.com", "", "", ""⟩
    "[user]\n    name = T\n" [] (by decide) (by decide) (by decide) (by decide)
    (by decide) (by decide)
